import Mathlib

/-!
Generational slot map (`slotmap.c`)

A shallow embedding of `sm_Vec` and `sm_Map` from `slotmap.c`, followed by the
properties of the map operations.

Modelling conventions.

* A buffer's backing store `ptr` is a total function from element index to cell.
  Cells keep their contents when `length` shrinks and when the buffer is
  reallocated, and a cell at any index can be read and written: allocation
  bounds are not represented, only the `capacity` bookkeeping of the source.
* `uint32_t` fields are natural numbers reduced modulo `2 ^ 32 = 4294967296`
  wherever the source stores into them; `size_t` arithmetic is reduced modulo
  `2 ^ 64 = 18446744073709551616`; `int64_t freelist_head` is an `Int`.
* A `NULL` argument is `none`.  Uninitialised memory (the result of `malloc`,
  the `freelist_tail` field after `sm_map_new`) is a parameter.
* The doubling loop of `sm_vec_push` may run forever; a push, and with it an
  insert, returns `none` in exactly that case.

Reachability.  `Reach P m I L` says that `m` is obtained from `sm_map_new`, called
with a capacity of at least 1, by inserts and removes, the removes being called with
keys that earlier inserts returned; `I` lists the keys issued so far and `L` the live
ones.  With `P := Any` every such history counts.  With `P := InRange` the history
stays within the range of the 32-bit fields: at most `2 ^ 32` slots, and no generation
counter wrapped round to `0`.  The properties of the map hold for the histories in
range; for each of them that fails beyond the range, a history that leaves the range
is given with the failure.
-/

namespace SlotMap

variable {α : Type}

/-! ## The program -/

/-- Store `x` in cell `i` of a backing store (a `memcpy` into, or an assignment
through a pointer to, element `i`). -/
def upd {β : Type} (f : Nat → β) (i : Nat) (x : β) : Nat → β :=
  fun j => if j = i then x else f j

/-- Conversion of a `size_t` to `uint32_t`. -/
def to_u32 (n : Nat) : Nat := n % 4294967296

/-- Conversion of an `int64_t` to `uint32_t`. -/
def int_to_u32 (i : Int) : Nat := (i % 4294967296).toNat

/-- Conversion of an `int64_t` to `size_t`. -/
def int_to_size (i : Int) : Nat := (i % 18446744073709551616).toNat

/-- Increment of a `size_t` (`++ v->length`). -/
def size_succ (n : Nat) : Nat := (n + 1) % 18446744073709551616

/-- Decrement of a `size_t` (`-- v->length`). -/
def size_pred (n : Nat) : Nat :=
  if n = 0 then 18446744073709551615 else n - 1

/-- Doubling of a `size_t` (`v->capacity *= 2`). -/
def size_double (n : Nat) : Nat := n * 2 % 18446744073709551616

/-- Increment of a `uint32_t` (`++ slot->generation`). -/
def u32_succ (n : Nat) : Nat := (n + 1) % 4294967296

/-- The record `sm_Vec`. -/
structure sm_Vec (α : Type) where
  ptr : Nat → α
  length : Nat
  capacity : Nat
  elem_size : Nat

/-- Function `sm_vec_new`; `mem` is the content of the fresh allocation. -/
def sm_vec_new (elem_size capacity : Nat) (mem : Nat → α) : sm_Vec α :=
  { ptr := mem, length := 0, elem_size := elem_size, capacity := capacity }

/-- Function `sm_vec_get`: the cell at `ptr + index * elem_size`. -/
def sm_vec_get (v : sm_Vec α) (index : Nat) : α :=
  v.ptr index

/-- The loop `while (v->length > v->capacity) v->capacity *= 2;` run for at most
`fuel` tests of its condition.  The capacity after `j` doublings is
`capacity * 2 ^ j % 2 ^ 64`, which is `0` from `j = 64` on, so a loop that has not
stopped after 65 tests never stops. -/
def grow_capacity : Nat → Nat → Nat → Option Nat
  | 0, _, _ => none
  | fuel + 1, length, capacity =>
    if length > capacity then
      grow_capacity fuel length (size_double capacity)
    else
      some capacity

/-- Function `sm_vec_push`.  Returns the buffer and the index of the element the
returned pointer refers to, or `none` when the growth loop does not terminate. -/
def sm_vec_push (v : sm_Vec α) (val : Option α) : Option (sm_Vec α × Nat) :=
  let grown : Option Nat :=
    if v.length > v.capacity then grow_capacity 65 v.length v.capacity
    else some v.capacity
  match grown with
  | none => none
  | some capacity =>
    let mem : Nat → α :=
      match val with
      | some x => upd v.ptr v.length x
      | none => v.ptr
    some ({ ptr := mem, length := size_succ v.length,
            capacity := capacity, elem_size := v.elem_size }, v.length)

/-- Function `sm_vec_swap_remove`.  Returns the buffer and the content of
`out_val` afterwards. -/
def sm_vec_swap_remove (v : sm_Vec α) (index : Nat) (out_val : Option α) :
    sm_Vec α × Option α :=
  let length := size_pred v.length
  let out : Option α :=
    match out_val with
    | some _ => some (v.ptr index)
    | none => none
  let mem : Nat → α :=
    if index < length then upd v.ptr index (v.ptr length) else v.ptr
  ({ ptr := mem, length := length, capacity := v.capacity, elem_size := v.elem_size }, out)

/-- The record `struct sm_Pair`, used as `sm_Slot` and as `sm_Key`. -/
structure sm_Pair where
  index : Nat
  generation : Nat
  deriving DecidableEq

abbrev sm_Slot := sm_Pair

abbrev sm_Key := sm_Pair

/-- The record `sm_Map`. -/
structure sm_Map (α : Type) where
  slots : sm_Vec sm_Slot
  slot_finder : sm_Vec Nat
  values : sm_Vec α
  freelist_head : Int
  freelist_tail : Nat

/-- Function `sm_map_new`.  The three `mem` arguments are the contents of the
fresh allocations and `tail` is the value the unassigned field `freelist_tail`
happens to hold. -/
def sm_map_new (value_size capacity : Nat) (mem_slots : Nat → sm_Slot)
    (mem_finder : Nat → Nat) (mem_values : Nat → α) (tail : Nat) : sm_Map α :=
  { slots := sm_vec_new 8 capacity mem_slots
    slot_finder := sm_vec_new 4 capacity mem_finder
    values := sm_vec_new value_size capacity mem_values
    freelist_head := -1
    freelist_tail := tail }

/-- Function `sm_map_insert`. -/
def sm_map_insert (m : sm_Map α) (val : Option α) : Option (sm_Key × sm_Map α) :=
  if m.freelist_head ≠ -1 then
    let key_index : Nat := int_to_u32 m.freelist_head
    let pos : Nat := int_to_size m.freelist_head
    let slot : sm_Slot := sm_vec_get m.slots pos
    let head : Int :=
      if (m.freelist_tail : Int) ≠ m.freelist_head then (slot.index : Int) else -1
    let slot : sm_Slot :=
      { index := to_u32 m.values.length, generation := slot.generation }
    let slots : sm_Vec sm_Slot := { m.slots with ptr := upd m.slots.ptr pos slot }
    let key : sm_Key := { index := key_index, generation := slot.generation }
    match sm_vec_push m.values val with
    | none => none
    | some (values, _) =>
      match sm_vec_push m.slot_finder (some key.index) with
      | none => none
      | some (slot_finder, _) =>
        some (key, { slots := slots, slot_finder := slot_finder, values := values,
                     freelist_head := head, freelist_tail := m.freelist_tail })
  else
    let key_index : Nat := to_u32 m.slots.length
    match sm_vec_push m.slots none with
    | none => none
    | some (slots, pos) =>
      let slot : sm_Slot :=
        { index := to_u32 m.values.length, generation := 1 }
      let slots : sm_Vec sm_Slot := { slots with ptr := upd slots.ptr pos slot }
      let key : sm_Key := { index := key_index, generation := slot.generation }
      match sm_vec_push m.values val with
      | none => none
      | some (values, _) =>
        match sm_vec_push m.slot_finder (some key.index) with
        | none => none
        | some (slot_finder, _) =>
          some (key, { slots := slots, slot_finder := slot_finder, values := values,
                       freelist_head := m.freelist_head,
                       freelist_tail := m.freelist_tail })

/-- Function `sm_map_get`: `none` is `NULL`, and `some x` is a pointer to a cell
of `values` holding `x`. -/
def sm_map_get (m : sm_Map α) (key : sm_Key) : Option α :=
  let slot : sm_Slot := sm_vec_get m.slots key.index
  if slot.generation = key.generation then some (sm_vec_get m.values slot.index)
  else none

/-- Function `sm_map_remove`.  Returns the result, the map and the content of
`out_val` afterwards. -/
def sm_map_remove (m : sm_Map α) (key : sm_Key) (out_val : Option α) :
    Bool × sm_Map α × Option α :=
  let slot : sm_Slot := sm_vec_get m.slots key.index
  if slot.generation ≠ key.generation then (false, m, out_val)
  else
    let slot : sm_Slot :=
      { index := slot.index, generation := u32_succ slot.generation }
    let slots : sm_Vec sm_Slot := { m.slots with ptr := upd m.slots.ptr key.index slot }
    let removed := sm_vec_swap_remove m.values slot.index out_val
    let slot_finder : sm_Vec Nat := (sm_vec_swap_remove m.slot_finder slot.index none).1
    let moved_slot_index : Nat := sm_vec_get slot_finder slot.index
    let moved_slot : sm_Slot := sm_vec_get slots moved_slot_index
    let slots : sm_Vec sm_Slot :=
      { slots with ptr := upd slots.ptr moved_slot_index
                     { index := slot.index, generation := moved_slot.generation } }
    let slot : sm_Slot := sm_vec_get slots key.index
    let slots : sm_Vec sm_Slot :=
      if m.freelist_head ≠ -1 then
        { slots with ptr := upd slots.ptr key.index
                       { index := int_to_u32 m.freelist_head,
                         generation := slot.generation } }
      else slots
    let tail : Nat := if m.freelist_head ≠ -1 then m.freelist_tail else key.index
    (true, { slots := slots, slot_finder := slot_finder, values := removed.1,
             freelist_head := (key.index : Int), freelist_tail := tail }, removed.2)

/-- The loop of `map_dump` that walks the freelist, started at `freenode` and run for
at most `fuel` nodes: the nodes visited, or `none` when `freelist_tail` is not reached
within `fuel` nodes. -/
def freelist_walk (m : sm_Map α) : Nat → Nat → Option (List Nat)
  | 0, _ => none
  | fuel + 1, freenode =>
    if freenode ≠ m.freelist_tail then
      match freelist_walk m fuel (sm_vec_get m.slots freenode).index with
      | none => none
      | some l => some (freenode :: l)
    else some [freenode]

/-- The freelist as `map_dump` prints it: nothing when `freelist_head` is `-1`, and
otherwise the nodes from `freelist_head` to `freelist_tail`. -/
def map_dump_freelist (m : sm_Map α) (fuel : Nat) : Option (List Nat) :=
  if m.freelist_head ≠ -1 then freelist_walk m fuel (int_to_u32 m.freelist_head)
  else some []

/-! ## Histories -/

/-- A map state is in range when it holds at most `2 ^ 32` slots and no slot's
generation counter is `0` (a counter starts at `1` and reaches `0` only by
wrapping round). -/
def InRange (m : sm_Map α) : Prop :=
  m.slots.length ≤ 4294967296 ∧
    ∀ j, j < m.slots.length → (m.slots.ptr j).generation ≠ 0

/-- The relation `Run P m0 I0 L0 m I L`: the map `m` is obtained from `m0` by a finite
sequence of `sm_map_insert` and `sm_map_remove` calls, every state produced on the
way satisfying `P`.  `I` lists the keys issued so far (those returned by an insert,
together with `I0`) and `L` the live ones (issued and not removed since); a remove
is called with an issued key. -/
inductive Run (P : sm_Map α → Prop) (m0 : sm_Map α) (I0 L0 : List sm_Key) :
    sm_Map α → List sm_Key → List sm_Key → Prop
  | start : Run P m0 I0 L0 m0 I0 L0
  | insert {m m2 : sm_Map α} {I L : List sm_Key} {val : Option α} {k : sm_Key} :
      Run P m0 I0 L0 m I L → sm_map_insert m val = some (k, m2) → P m2 →
      Run P m0 I0 L0 m2 (k :: I) (k :: L)
  | remove {m m2 : sm_Map α} {I L : List sm_Key} {k : sm_Key} {out out2 : Option α}
      {b : Bool} :
      Run P m0 I0 L0 m I L → k ∈ I → sm_map_remove m k out = (b, m2, out2) → P m2 →
      Run P m0 I0 L0 m2 I (if b then L.filter (fun x => x ≠ k) else L)

/-- The map `m`, with issued keys `I` and live keys `L`, is reachable from
`sm_map_new` called with a capacity of at least 1, through states satisfying `P`. -/
def Reach (P : sm_Map α → Prop) (m : sm_Map α) (I L : List sm_Key) : Prop :=
  ∃ (value_size capacity : Nat) (ms : Nat → sm_Slot) (mf : Nat → Nat) (mv : Nat → α)
    (tail : Nat), 1 ≤ capacity ∧ capacity < 18446744073709551616 ∧
      Run P (sm_map_new value_size capacity ms mf mv tail) [] [] m I L

/-- No restriction on the states of a history. -/
def Any (_ : sm_Map α) : Prop := True

/-! ## Invariants -/

/-- The capacity of a buffer is a positive `size_t`. -/
def VecOK {β : Type} (v : sm_Vec β) : Prop :=
  1 ≤ v.capacity ∧ v.capacity < 18446744073709551616

/-- The value of `freelist_head` for the freelist `fl`. -/
def headOf (fl : List Nat) : Int :=
  match fl with
  | [] => -1
  | h :: _ => (h : Int)

/-- The structural invariant of a map in range; `fl` is the freelist read from
`freelist_head` to `freelist_tail`. -/
structure Inv (m : sm_Map α) (fl : List Nat) : Prop where
  cap_s : VecOK m.slots
  cap_f : VecOK m.slot_finder
  cap_v : VecOK m.values
  len_eq : m.slot_finder.length = m.values.length
  slots_le : m.slots.length ≤ 4294967296
  count : m.slots.length = m.values.length + fl.length
  dense : ∀ i, i < m.values.length →
    m.slot_finder.ptr i < m.slots.length ∧ (m.slots.ptr (m.slot_finder.ptr i)).index = i
  gen_lt : ∀ j, j < m.slots.length → (m.slots.ptr j).generation < 4294967296
  nodup : fl.Nodup
  free : ∀ j, j ∈ fl ↔
    (j < m.slots.length ∧ ∀ i, i < m.values.length → m.slot_finder.ptr i ≠ j)
  chain : List.Chain' (fun a b => (m.slots.ptr a).index = b) fl
  head_empty : fl = [] → m.freelist_head = -1
  head_first : ∀ h t, fl = h :: t → m.freelist_head = (h : Int)
  tail : fl ≠ [] → fl.getLast? = some m.freelist_tail

/-- The invariant tying the issued and live keys of a history to the map. -/
structure GInv (m : sm_Map α) (I L : List sm_Key) : Prop where
  issued_lt : ∀ k, k ∈ I → k.index < m.slots.length
  issued_le : ∀ k, k ∈ I → k.generation ≤ (m.slots.ptr k.index).generation
  issued_live : ∀ k, k ∈ I → (m.slots.ptr k.index).generation = k.generation →
    ∃ i, i < m.values.length ∧ m.slot_finder.ptr i = k.index
  live_iff : ∀ k, k ∈ L ↔ k ∈ I ∧ (m.slots.ptr k.index).generation = k.generation

/-! ## Descriptions of single calls -/

/-- The position a successful remove of `k` vacates. -/
def posOf (m : sm_Map α) (k : sm_Key) : Nat := (m.slots.ptr k.index).index

/-- The cell a push writes: the value, or the old content for a `NULL` value. -/
def pushed {β : Type} (v : sm_Vec β) (val : Option β) : Nat → β :=
  match val with
  | some x => upd v.ptr v.length x
  | none => v.ptr

/-- The field-by-field description of an insert that returned `k`. -/
structure Inserted (m m2 : sm_Map α) (k : sm_Key) (val : Option α) : Prop where
  slot_key : m2.slots.ptr k.index = { index := m.values.length, generation := k.generation }
  slot_other : ∀ x, x ≠ k.index → m2.slots.ptr x = m.slots.ptr x
  values_ptr : m2.values.ptr = pushed m.values val
  values_length : m2.values.length = m.values.length + 1
  finder_ptr : m2.slot_finder.ptr = upd m.slot_finder.ptr m.values.length k.index
  finder_length : m2.slot_finder.length = m.values.length + 1
  tail : m2.freelist_tail = m.freelist_tail

/-- The field-by-field description of a successful remove of a live key. -/
structure Removed (m m2 : sm_Map α) (k : sm_Key) : Prop where
  pos_lt : posOf m k < m.values.length
  pos_slot : m.slot_finder.ptr (posOf m k) = k.index
  slots_length : m2.slots.length = m.slots.length
  values_length : m2.values.length + 1 = m.values.length
  finder_length : m2.slot_finder.length = m2.values.length
  caps : VecOK m2.slots ∧ VecOK m2.slot_finder ∧ VecOK m2.values
  head : m2.freelist_head = (k.index : Int)
  tail : m2.freelist_tail = if m.freelist_head ≠ -1 then m.freelist_tail else k.index
  finder : ∀ i, i < m2.values.length →
    m2.slot_finder.ptr i =
      if i = posOf m k then m.slot_finder.ptr m2.values.length else m.slot_finder.ptr i
  values : ∀ i, i < m2.values.length →
    m2.values.ptr i =
      if i = posOf m k then m.values.ptr m2.values.length else m.values.ptr i
  slot_key : m2.slots.ptr k.index =
    { index := if m.freelist_head ≠ -1 then int_to_u32 m.freelist_head else posOf m k,
      generation := u32_succ k.generation }
  slot_moved : posOf m k < m2.values.length →
    m2.slots.ptr (m.slot_finder.ptr m2.values.length) =
      { index := posOf m k,
        generation := (m.slots.ptr (m.slot_finder.ptr m2.values.length)).generation }
  slot_other : ∀ x, x ≠ k.index →
    (posOf m k < m2.values.length → x ≠ m.slot_finder.ptr m2.values.length) →
    m2.slots.ptr x = m.slots.ptr x

/-! ## Scenarios -/

/-- The map after inserting `0, 1, …, n - 1`, in this order, into
`sm_map_new(4, 1)`, together with the keys returned, latest first. -/
def fill : Nat → Option (sm_Map Nat × List sm_Key)
  | 0 => some (sm_map_new 4 1 (fun _ => { index := 0, generation := 0 }) (fun _ => 0)
      (fun _ => 0) 0, [])
  | n + 1 =>
    match fill n with
    | none => none
    | some (m, I) =>
      match sm_map_insert m (some n) with
      | none => none
      | some (k, m2) => some (m2, k :: I)

/-- The shape of the map after `n` inserts and no remove. -/
structure Full (n : Nat) (m : sm_Map Nat) (I : List sm_Key) : Prop where
  slots_length : m.slots.length = n
  values_length : m.values.length = n
  finder_length : m.slot_finder.length = n
  head : m.freelist_head = -1
  caps : VecOK m.slots ∧ VecOK m.slot_finder ∧ VecOK m.values
  slots : ∀ j, j < n → m.slots.ptr j = { index := to_u32 j, generation := 1 }
  finder : ∀ i, i < n → m.slot_finder.ptr i = to_u32 i
  values : ∀ i, i < n → m.values.ptr i = i
  keys : ∀ k, k ∈ I ↔ ∃ i, i < n ∧ k = { index := to_u32 i, generation := 1 }

/-- A new map of capacity 4 whose memory is zeroed. -/
def w0 : sm_Map Nat :=
  sm_map_new 4 4 (fun _ => { index := 0, generation := 0 }) (fun _ => 0) (fun _ => 0) 0

/-- The key returned by, and the map after, an insert of `v`. -/
def ins (m : sm_Map Nat) (v : Nat) : sm_Key × sm_Map Nat :=
  (sm_map_insert m (some v)).getD ({ index := 0, generation := 0 }, m)

/-- The map `w0` after the insert of `5`, returning the key `{0, 1}`. -/
def w1 : sm_Map Nat := (ins w0 5).2

/-- The map `w1` after the insert of `6`, returning the key `{1, 1}`. -/
def w2 : sm_Map Nat := (ins w1 6).2

/-- The map `w2` after the remove of the key `{0, 1}`. -/
def w3 : sm_Map Nat := (sm_map_remove w2 { index := 0, generation := 1 } none).2.1

/-- The map `w2` after the remove of the key `{1, 1}`. -/
def w4 : sm_Map Nat := (sm_map_remove w2 { index := 1, generation := 1 } none).2.1

/-- The map after `t` rounds of an insert of `7` followed by the remove of the key the
insert returned. -/
def spin (m : sm_Map Nat) : Nat → Option (sm_Map Nat)
  | 0 => some m
  | t + 1 =>
    match spin m t with
    | none => none
    | some m1 =>
      match sm_map_insert m1 (some 7) with
      | none => none
      | some (k, m2) => some (sm_map_remove m2 k none).2.1

/-- The shape of a map of two slots in which slot 0 holds the value `5` and slot 1 is
free with generation `g`. -/
structure Spun (g : Nat) (m : sm_Map Nat) : Prop where
  slots_length : m.slots.length = 2
  values_length : m.values.length = 1
  finder_length : m.slot_finder.length = 1
  head : m.freelist_head = 1
  tail : m.freelist_tail = 1
  caps : VecOK m.slots ∧ VecOK m.slot_finder ∧ VecOK m.values
  slot0 : m.slots.ptr 0 = { index := 0, generation := 1 }
  slot1 : m.slots.ptr 1 = { index := 1, generation := g }
  finder0 : m.slot_finder.ptr 0 = 0
  finder1 : m.slot_finder.ptr 1 = 1
  value0 : m.values.ptr 0 = 5

/-- The shape of a map of shape `Spun g` after an insert. -/
structure Mid (g : Nat) (m : sm_Map Nat) : Prop where
  slots_length : m.slots.length = 2
  values_length : m.values.length = 2
  finder_length : m.slot_finder.length = 2
  head : m.freelist_head = -1
  caps : VecOK m.slots ∧ VecOK m.slot_finder ∧ VecOK m.values
  slot0 : m.slots.ptr 0 = { index := 0, generation := 1 }
  slot1 : m.slots.ptr 1 = { index := 1, generation := g }
  finder0 : m.slot_finder.ptr 0 = 0
  finder1 : m.slot_finder.ptr 1 = 1
  value0 : m.values.ptr 0 = 5

/-- The map `w3` after the insert of `7`, which recycles slot 0 and returns the key
`{0, 2}`. -/
def w5 : sm_Map Nat := (ins w3 7).2

/-- A full buffer of capacity 1. -/
def buf_full : sm_Vec Nat :=
  { ptr := fun _ => 0, length := 1, capacity := 1, elem_size := 4 }

/-- A buffer whose length and capacity are `2 ^ 64 - 1`. -/
def buf_max : sm_Vec Nat :=
  { ptr := fun _ => 0, length := 18446744073709551615, capacity := 18446744073709551615,
    elem_size := 4 }

/-- A buffer of capacity 1 and length `2 ^ 63 + 1`. -/
def buf_huge : sm_Vec Nat :=
  { ptr := fun _ => 0, length := 9223372036854775809, capacity := 1, elem_size := 4 }

/-- A buffer of capacity 4 holding `0, 1, 2`. -/
def buf_three : sm_Vec Nat :=
  { ptr := fun i => i, length := 3, capacity := 4, elem_size := 4 }

/-- The loop `for (int i = 0; i < n; ++ i) keys[i] = sm_map_insert(&map, &i);` of
`main`: the map and the keys afterwards. -/
def insert_range (m : sm_Map Int) : Nat → Option (sm_Map Int × List sm_Key)
  | 0 => some (m, [])
  | n + 1 =>
    match insert_range m n with
    | none => none
    | some (m1, keys) =>
      match sm_map_insert m1 (some (n : Int)) with
      | none => none
      | some (k, m2) => some (m2, keys ++ [k])

/-- The keys `{0, 1}, …, {n - 1, 1}`. -/
def range_keys (n : Nat) : List sm_Key :=
  (List.range n).map (fun i => { index := i, generation := 1 })

/-- The shape of a map after the loop of `main` has inserted `0, …, n - 1`. -/
structure Ranged (n : Nat) (m : sm_Map Int) : Prop where
  slots_length : m.slots.length = n
  values_length : m.values.length = n
  finder_length : m.slot_finder.length = n
  head : m.freelist_head = -1
  caps : VecOK m.slots ∧ VecOK m.slot_finder ∧ VecOK m.values
  slots : ∀ j, j < n → m.slots.ptr j = { index := j, generation := 1 }
  finder : ∀ i, i < n → m.slot_finder.ptr i = i
  values : ∀ i, i < n → m.values.ptr i = (i : Int)

/-- Two map states that agree in every field except possibly `freelist_tail`. -/
def EqExceptTail (a b : sm_Map α) : Prop :=
  a.slots = b.slots ∧ a.slot_finder = b.slot_finder ∧ a.values = b.values ∧
    a.freelist_head = b.freelist_head

/-- The map `w1` with another value of `freelist_tail`. -/
def w1_tail : sm_Map Nat := { w1 with freelist_tail := 7 }

/-! ## Properties -/

theorem grow_capacity_some (fuel : Nat) : ∀ (len cap : Nat), 1 ≤ cap →
    cap < 18446744073709551616 → len ≤ 4611686018427387904 → len ≤ cap * 2 ^ fuel →
    ∃ c, grow_capacity (fuel + 1) len cap = some c ∧ 1 ≤ c ∧ c < 18446744073709551616 := by
  induction fuel with
  | zero =>
    intro len cap h1 h2 _ h4
    refine ⟨cap, ?_, h1, h2⟩
    have : ¬ len > cap := by simpa using h4
    simp [grow_capacity, this]
  | succ f ih =>
    intro len cap h1 h2 h3 h4
    by_cases hc : len > cap
    · have hm : size_double cap = cap * 2 := by unfold size_double; omega
      have h5 : len ≤ cap * 2 * 2 ^ f := by
        rw [pow_succ] at h4
        calc len ≤ cap * (2 ^ f * 2) := h4
          _ = cap * 2 * 2 ^ f := by ring
      obtain ⟨c, hc1, hc2, hc3⟩ := ih len (cap * 2) (by omega) (by omega) h3 h5
      refine ⟨c, ?_, hc2, hc3⟩
      rw [grow_capacity, if_pos hc, hm]
      exact hc1
    · exact ⟨cap, by rw [grow_capacity, if_neg hc], h1, h2⟩

theorem sm_vec_push_some {β : Type} (v : sm_Vec β) (val : Option β) (hv : VecOK v)
    (hl : v.length ≤ 4611686018427387904) :
    ∃ c, 1 ≤ c ∧ c < 18446744073709551616 ∧
      sm_vec_push v val =
        some ({ ptr := (match val with
                        | some x => upd v.ptr v.length x
                        | none => v.ptr),
                length := v.length + 1, capacity := c, elem_size := v.elem_size },
              v.length) := by
  have hlen : size_succ v.length = v.length + 1 := by unfold size_succ; omega
  by_cases hc : v.length > v.capacity
  · have h4 : v.length ≤ v.capacity * 2 ^ 64 := by
      have : v.capacity * 1 ≤ v.capacity * 2 ^ 64 := Nat.mul_le_mul_left _ (by norm_num)
      have h1 := hv.1
      omega
    obtain ⟨c, hc1, hc2, hc3⟩ := grow_capacity_some 64 v.length v.capacity hv.1 hv.2 hl h4
    refine ⟨c, hc2, hc3, ?_⟩
    simp only [sm_vec_push, if_pos hc, hc1, hlen]
  · refine ⟨v.capacity, hv.1, hv.2, ?_⟩
    simp only [sm_vec_push, if_neg hc, hlen]

theorem upd_same {β : Type} (f : Nat → β) (i : Nat) (x : β) : upd f i x i = x := by
  simp [upd]

theorem upd_other {β : Type} (f : Nat → β) (i j : Nat) (x : β) (h : j ≠ i) :
    upd f i x j = f j := by
  simp [upd, h]

theorem remove_stale (m : sm_Map α) (k : sm_Key) (out : Option α)
    (h : (m.slots.ptr k.index).generation ≠ k.generation) :
    sm_map_remove m k out = (false, m, out) := by
  rw [sm_map_remove]
  exact if_pos h

theorem remove_fst (m : sm_Map α) (k : sm_Key) (out : Option α)
    (h : (m.slots.ptr k.index).generation = k.generation) : (sm_map_remove m k out).1 = true := by
  rw [sm_map_remove, if_neg (by simpa only [sm_vec_get, ne_eq, not_not] using h)]

theorem remove_values_length (m : sm_Map α) (k : sm_Key) (out : Option α)
    (h : (m.slots.ptr k.index).generation = k.generation) :
    (sm_map_remove m k out).2.1.values.length = size_pred m.values.length := by
  rw [sm_map_remove, if_neg (by simpa only [sm_vec_get, ne_eq, not_not] using h)]
  simp only [posOf, sm_vec_swap_remove, sm_vec_get]

theorem remove_finder_length (m : sm_Map α) (k : sm_Key) (out : Option α)
    (h : (m.slots.ptr k.index).generation = k.generation) :
    (sm_map_remove m k out).2.1.slot_finder.length = size_pred m.slot_finder.length := by
  rw [sm_map_remove, if_neg (by simpa only [sm_vec_get, ne_eq, not_not] using h)]
  simp only [posOf, sm_vec_swap_remove, sm_vec_get]

theorem remove_slots_length (m : sm_Map α) (k : sm_Key) (out : Option α)
    (h : (m.slots.ptr k.index).generation = k.generation) :
    (sm_map_remove m k out).2.1.slots.length = m.slots.length := by
  rw [sm_map_remove, if_neg (by simpa only [sm_vec_get, ne_eq, not_not] using h)]
  dsimp only
  split <;> rfl

theorem remove_head (m : sm_Map α) (k : sm_Key) (out : Option α)
    (h : (m.slots.ptr k.index).generation = k.generation) :
    (sm_map_remove m k out).2.1.freelist_head = (k.index : Int) := by
  rw [sm_map_remove, if_neg (by simpa only [sm_vec_get, ne_eq, not_not] using h)]

theorem remove_tail (m : sm_Map α) (k : sm_Key) (out : Option α)
    (h : (m.slots.ptr k.index).generation = k.generation) :
    (sm_map_remove m k out).2.1.freelist_tail =
      if m.freelist_head ≠ -1 then m.freelist_tail else k.index := by
  rw [sm_map_remove, if_neg (by simpa only [sm_vec_get, ne_eq, not_not] using h)]

theorem remove_out (m : sm_Map α) (k : sm_Key) (out : Option α)
    (h : (m.slots.ptr k.index).generation = k.generation) :
    (sm_map_remove m k out).2.2 =
      match out with
      | some _ => some (m.values.ptr (posOf m k))
      | none => none := by
  rw [sm_map_remove, if_neg (by simpa only [sm_vec_get, ne_eq, not_not] using h)]
  simp only [posOf, sm_vec_swap_remove, sm_vec_get]

theorem remove_values_ptr (m : sm_Map α) (k : sm_Key) (out : Option α)
    (h : (m.slots.ptr k.index).generation = k.generation) :
    (sm_map_remove m k out).2.1.values.ptr =
      if posOf m k < size_pred m.values.length then
        upd m.values.ptr (posOf m k) (m.values.ptr (size_pred m.values.length))
      else m.values.ptr := by
  rw [sm_map_remove, if_neg (by simpa only [sm_vec_get, ne_eq, not_not] using h)]
  simp only [posOf, sm_vec_swap_remove, sm_vec_get]

theorem remove_finder_ptr (m : sm_Map α) (k : sm_Key) (out : Option α)
    (h : (m.slots.ptr k.index).generation = k.generation) :
    (sm_map_remove m k out).2.1.slot_finder.ptr =
      if posOf m k < size_pred m.slot_finder.length then
        upd m.slot_finder.ptr (posOf m k) (m.slot_finder.ptr (size_pred m.slot_finder.length))
      else m.slot_finder.ptr := by
  rw [sm_map_remove, if_neg (by simpa only [sm_vec_get, ne_eq, not_not] using h)]
  simp only [posOf, sm_vec_swap_remove, sm_vec_get]

theorem remove_values_capacity (m : sm_Map α) (k : sm_Key) (out : Option α)
    (h : (m.slots.ptr k.index).generation = k.generation) :
    (sm_map_remove m k out).2.1.values.capacity = m.values.capacity := by
  rw [sm_map_remove, if_neg (by simpa only [sm_vec_get, ne_eq, not_not] using h)]
  rfl

theorem remove_finder_capacity (m : sm_Map α) (k : sm_Key) (out : Option α)
    (h : (m.slots.ptr k.index).generation = k.generation) :
    (sm_map_remove m k out).2.1.slot_finder.capacity = m.slot_finder.capacity := by
  rw [sm_map_remove, if_neg (by simpa only [sm_vec_get, ne_eq, not_not] using h)]
  rfl

theorem remove_slots_capacity (m : sm_Map α) (k : sm_Key) (out : Option α)
    (h : (m.slots.ptr k.index).generation = k.generation) :
    (sm_map_remove m k out).2.1.slots.capacity = m.slots.capacity := by
  rw [sm_map_remove, if_neg (by simpa only [sm_vec_get, ne_eq, not_not] using h)]
  dsimp only
  split <;> rfl

/-- Cell `x` of `slots` after a successful remove of `k`. -/
theorem remove_slots_ptr (m : sm_Map α) (k : sm_Key) (out : Option α)
    (h : (m.slots.ptr k.index).generation = k.generation) (x : Nat) :
    (sm_map_remove m k out).2.1.slots.ptr x =
      if x = k.index then
        { index := if m.freelist_head ≠ -1 then int_to_u32 m.freelist_head
                   else posOf m k,
          generation := u32_succ k.generation }
      else if x = (sm_map_remove m k out).2.1.slot_finder.ptr (posOf m k) then
        { index := posOf m k, generation := (m.slots.ptr x).generation }
      else m.slots.ptr x := by
  rw [remove_finder_ptr m k out h]
  rw [sm_map_remove, if_neg (by simpa only [sm_vec_get, ne_eq, not_not] using h)]
  dsimp only [sm_vec_get, sm_vec_swap_remove, posOf]
  generalize (if (m.slots.ptr k.index).index < size_pred m.slot_finder.length then
        upd m.slot_finder.ptr (m.slots.ptr k.index).index
          (m.slot_finder.ptr (size_pred m.slot_finder.length))
      else m.slot_finder.ptr) (m.slots.ptr k.index).index = mv
  have hsymm : k.index = mv ↔ mv = k.index := eq_comm
  by_cases hh : m.freelist_head = -1 <;> by_cases hx : x = k.index <;>
    by_cases hm : x = mv <;> by_cases hm2 : mv = k.index <;>
    simp [hh, hx, hm, hm2, hsymm, upd, h]

theorem insert_fresh_eq (m : sm_Map α) (val : Option α) (hh : m.freelist_head = -1)
    (hs : VecOK m.slots) (hf : VecOK m.slot_finder) (hv : VecOK m.values)
    (ls : m.slots.length ≤ 4611686018427387904)
    (lf : m.slot_finder.length ≤ 4611686018427387904)
    (lv : m.values.length ≤ 4611686018427387904) :
    ∃ c1 c2 c3, (1 ≤ c1 ∧ c1 < 18446744073709551616) ∧ (1 ≤ c2 ∧ c2 < 18446744073709551616) ∧
      (1 ≤ c3 ∧ c3 < 18446744073709551616) ∧
      sm_map_insert m val = some
        ({ index := to_u32 m.slots.length, generation := 1 },
         { slots := { ptr := upd m.slots.ptr m.slots.length
                        { index := to_u32 m.values.length, generation := 1 },
                      length := m.slots.length + 1, capacity := c1,
                      elem_size := m.slots.elem_size },
           slot_finder := { ptr := upd m.slot_finder.ptr m.slot_finder.length
                              (to_u32 m.slots.length),
                            length := m.slot_finder.length + 1, capacity := c3,
                            elem_size := m.slot_finder.elem_size },
           values := { ptr := pushed m.values val, length := m.values.length + 1,
                       capacity := c2, elem_size := m.values.elem_size },
           freelist_head := m.freelist_head, freelist_tail := m.freelist_tail }) := by
  obtain ⟨c1, a1, b1, e1⟩ := sm_vec_push_some m.slots none hs ls
  obtain ⟨c2, a2, b2, e2⟩ := sm_vec_push_some m.values val hv lv
  obtain ⟨c3, a3, b3, e3⟩ := sm_vec_push_some m.slot_finder (some (to_u32 m.slots.length)) hf lf
  refine ⟨c1, c2, c3, ⟨a1, b1⟩, ⟨a2, b2⟩, ⟨a3, b3⟩, ?_⟩
  rw [sm_map_insert, if_neg (by simp [hh])]
  simp only [e1, e2, e3]
  rfl

theorem insert_reuse_eq (m : sm_Map α) (val : Option α) (hh : m.freelist_head ≠ -1)
    (hf : VecOK m.slot_finder) (hv : VecOK m.values)
    (lf : m.slot_finder.length ≤ 4611686018427387904)
    (lv : m.values.length ≤ 4611686018427387904) :
    ∃ c2 c3, (1 ≤ c2 ∧ c2 < 18446744073709551616) ∧
      (1 ≤ c3 ∧ c3 < 18446744073709551616) ∧
      sm_map_insert m val = some
        ({ index := int_to_u32 m.freelist_head,
           generation := (m.slots.ptr (int_to_size m.freelist_head)).generation },
         { slots := { ptr := upd m.slots.ptr (int_to_size m.freelist_head)
                        { index := to_u32 m.values.length,
                          generation := (m.slots.ptr (int_to_size m.freelist_head)).generation },
                      length := m.slots.length, capacity := m.slots.capacity,
                      elem_size := m.slots.elem_size },
           slot_finder := { ptr := upd m.slot_finder.ptr m.slot_finder.length
                              (int_to_u32 m.freelist_head),
                            length := m.slot_finder.length + 1, capacity := c3,
                            elem_size := m.slot_finder.elem_size },
           values := { ptr := pushed m.values val, length := m.values.length + 1,
                       capacity := c2, elem_size := m.values.elem_size },
           freelist_head :=
             if (m.freelist_tail : Int) ≠ m.freelist_head then
               ((m.slots.ptr (int_to_size m.freelist_head)).index : Int)
             else -1,
           freelist_tail := m.freelist_tail }) := by
  obtain ⟨c2, a2, b2, e2⟩ := sm_vec_push_some m.values val hv lv
  obtain ⟨c3, a3, b3, e3⟩ :=
    sm_vec_push_some m.slot_finder (some (int_to_u32 m.freelist_head)) hf lf
  refine ⟨c2, c3, ⟨a2, b2⟩, ⟨a3, b3⟩, ?_⟩
  rw [sm_map_insert, if_pos hh]
  simp only [e2, e3]
  rfl

theorem to_u32_of_lt {n : Nat} (h : n < 4294967296) : to_u32 n = n := by
  unfold to_u32; omega

theorem int_to_u32_of_lt {n : Nat} (h : n < 4294967296) : int_to_u32 (n : Int) = n := by
  unfold int_to_u32; omega

theorem int_to_size_of_lt {n : Nat} (h : n < 18446744073709551616) :
    int_to_size (n : Int) = n := by
  unfold int_to_size; omega

theorem size_pred_of_pos {n : Nat} (h : 1 ≤ n) : size_pred n = n - 1 := by
  unfold size_pred; rw [if_neg (by omega)]

theorem u32_succ_of_lt {n : Nat} (h : n + 1 < 4294967296) : u32_succ n = n + 1 := by
  unfold u32_succ; omega

theorem u32_succ_lt (n : Nat) : u32_succ n < 4294967296 := by
  unfold u32_succ; omega

theorem u32_succ_ne_zero {n : Nat} (h : n < 4294967296) (h0 : u32_succ n ≠ 0) :
    u32_succ n = n + 1 := by
  unfold u32_succ at *; omega

theorem Inv.head_nil {m : sm_Map α} {fl : List Nat} (hi : Inv m fl)
    (hh : m.freelist_head = -1) : fl = [] := by
  cases fl with
  | nil => rfl
  | cons a t =>
    have := hi.head_first a t rfl
    omega

theorem Inv.head_cons {m : sm_Map α} {fl : List Nat} (hi : Inv m fl)
    (hh : m.freelist_head ≠ -1) : ∃ t, fl = int_to_size m.freelist_head :: t ∧
      m.freelist_head = (int_to_size m.freelist_head : Int) ∧
      int_to_u32 m.freelist_head = int_to_size m.freelist_head ∧
      int_to_size m.freelist_head < m.slots.length := by
  cases fl with
  | nil => exact absurd (hi.head_empty rfl) hh
  | cons a t =>
    have h1 : m.freelist_head = (a : Int) := hi.head_first a t rfl
    have h2 : a < m.slots.length := ((hi.free a).1 (List.mem_cons_self a t)).1
    have h3 := hi.slots_le
    rw [h1, int_to_size_of_lt (by omega), int_to_u32_of_lt (by omega)]
    exact ⟨t, rfl, rfl, rfl, h2⟩

theorem Inv.inj {m : sm_Map α} {fl : List Nat} (hi : Inv m fl) {i j : Nat}
    (h1 : i < m.values.length) (h2 : j < m.values.length)
    (h : m.slot_finder.ptr i = m.slot_finder.ptr j) : i = j := by
  have a := (hi.dense i h1).2
  have b := (hi.dense j h2).2
  rw [h] at a
  omega

theorem Inv.values_le {m : sm_Map α} {fl : List Nat} (hi : Inv m fl) :
    m.values.length ≤ 4294967296 := by
  have := hi.count
  have := hi.slots_le
  omega

theorem inv_insert_fresh {m m2 : sm_Map α} {I L : List sm_Key} {fl0 : List Nat}
    {val : Option α} {k : sm_Key}
    (hi : Inv m fl0) (hg : GInv m I L) (hh : m.freelist_head = -1)
    (he : sm_map_insert m val = some (k, m2)) (hr : m2.slots.length ≤ 4294967296) :
    k = { index := m.slots.length, generation := 1 } ∧
      m2.slots.length = m.slots.length + 1 ∧
      m2.freelist_head = -1 ∧
      Inserted m m2 k val ∧
      Inv m2 [] ∧ GInv m2 (k :: I) (k :: L) ∧ k ∉ I := by
  have hnil := hi.head_nil hh
  subst hnil
  have hcount := hi.count
  have hvl := hi.values_le
  have hsl := hi.slots_le
  have hlen := hi.len_eq
  simp only [List.length_nil, Nat.add_zero] at hcount
  obtain ⟨c1, c2, c3, hc1, hc2, hc3, e⟩ := insert_fresh_eq m val hh hi.cap_s hi.cap_f hi.cap_v
    (by omega) (by omega) (by omega)
  rw [e] at he
  simp only [Option.some.injEq, Prod.mk.injEq] at he
  obtain ⟨rfl, rfl⟩ := he
  dsimp only at hr
  have hs : to_u32 m.slots.length = m.slots.length := to_u32_of_lt (by omega)
  have hn : to_u32 m.values.length = m.slots.length := by
    rw [to_u32_of_lt (by omega)]; omega
  rw [hs, hn, hlen, ← hcount]
  refine ⟨rfl, rfl, hh, ?_, ?_, ?_, ?_⟩
  · refine ⟨?_, fun x hx => upd_other _ _ _ _ hx, rfl, ?_, ?_, ?_, rfl⟩
    · rw [← hcount]; exact upd_same _ _ _
    · rw [← hcount]
    · rw [← hcount]
    · rw [← hcount]
  · refine ⟨hc1, hc3, hc2, ?_, hr, ?_, ?_, ?_, List.nodup_nil, ?_, List.chain'_nil,
      fun _ => hh, ?_, ?_⟩
    · simp only [hcount]
    · simp only [List.length_nil, Nat.add_zero, hcount]
    · intro i hi2
      dsimp only at hi2 ⊢
      by_cases h : i = m.slots.length
      · subst h
        simp [upd]
      · have hlt : i < m.values.length := by omega
        obtain ⟨d1, d2⟩ := hi.dense i hlt
        rw [upd_other _ _ _ _ h, upd_other _ _ _ _ (by omega)]
        exact ⟨by omega, d2⟩
    · intro j hj
      dsimp only at hj ⊢
      by_cases h : j = m.slots.length
      · subst h
        simp [upd]
      · rw [upd_other _ _ _ _ h]
        exact hi.gen_lt j (by omega)
    · intro j
      simp only [List.not_mem_nil, false_iff, not_and, not_forall, not_not]
      intro hj
      by_cases h : j = m.slots.length
      · exact ⟨m.slots.length, by omega, by simp [upd, h]⟩
      · have hjl : j < m.slots.length := by omega
        have hf := (hi.free j).not.1 (List.not_mem_nil j)
        simp only [not_and, not_forall, not_not] at hf
        obtain ⟨i, hi1, hi2⟩ := hf hjl
        refine ⟨i, by omega, ?_⟩
        rw [upd_other _ _ _ _ (by omega)]
        exact hi2
    · intro h t ht; exact absurd ht.symm (List.cons_ne_nil _ _)
    · intro h; exact absurd rfl h
  · refine ⟨?_, ?_, ?_, ?_⟩
    · intro k2 hk2
      rcases List.mem_cons.1 hk2 with rfl | h
      · exact Nat.lt_succ_self _
      · exact Nat.lt_succ_of_lt (hg.issued_lt k2 h)
    · intro k2 hk2
      rcases List.mem_cons.1 hk2 with rfl | h
      · simp [upd]
      · have := hg.issued_lt k2 h
        dsimp only
        rw [upd_other _ _ _ _ (by omega)]
        exact hg.issued_le k2 h
    · intro k2 hk2 hgen
      rcases List.mem_cons.1 hk2 with rfl | h
      · exact ⟨m.slots.length, by dsimp only; omega, by simp [upd]⟩
      · have hlt := hg.issued_lt k2 h
        dsimp only at hgen ⊢
        rw [upd_other _ _ _ _ (by omega)] at hgen
        obtain ⟨i, hi1, hi2⟩ := hg.issued_live k2 h hgen
        refine ⟨i, by omega, ?_⟩
        rw [upd_other _ _ _ _ (by omega)]
        exact hi2
    · intro k2
      constructor
      · intro hk2
        rcases List.mem_cons.1 hk2 with rfl | h
        · exact ⟨List.mem_cons_self _ _, by simp [upd]⟩
        · have h2 := (hg.live_iff k2).1 h
          have hlt := hg.issued_lt k2 h2.1
          refine ⟨List.mem_cons_of_mem _ h2.1, ?_⟩
          dsimp only
          rw [upd_other _ _ _ _ (by omega)]
          exact h2.2
      · rintro ⟨hk2, hgen⟩
        rcases List.mem_cons.1 hk2 with rfl | h
        · exact List.mem_cons_self _ _
        · have hlt := hg.issued_lt k2 h
          dsimp only at hgen
          rw [upd_other _ _ _ _ (by omega)] at hgen
          exact List.mem_cons_of_mem _ ((hg.live_iff k2).2 ⟨h, hgen⟩)
  · intro hk
    have := hg.issued_lt _ hk
    dsimp only at this
    omega

theorem chain_congr {S S2 : Nat → sm_Slot} {l : List Nat}
    (h : ∀ a, a ∈ l → S2 a = S a)
    (hc : List.Chain' (fun a b => (S a).index = b) l) :
    List.Chain' (fun a b => (S2 a).index = b) l := by
  induction l with
  | nil => exact List.chain'_nil
  | cons a t ih =>
    cases t with
    | nil => exact List.chain'_singleton a
    | cons b t2 =>
      rw [List.chain'_cons] at hc ⊢
      refine ⟨?_, ih (fun x hx => h x (List.mem_cons_of_mem _ hx)) hc.2⟩
      rw [h a (List.mem_cons_self _ _)]
      exact hc.1

theorem inv_insert_reuse {m m2 : sm_Map α} {I L : List sm_Key} {fl0 : List Nat}
    {val : Option α} {k : sm_Key}
    (hi : Inv m fl0) (hg : GInv m I L) (hh : m.freelist_head ≠ -1)
    (he : sm_map_insert m val = some (k, m2)) :
    ∃ h t, fl0 = h :: t ∧ m.freelist_head = (h : Int) ∧
      k = { index := h, generation := (m.slots.ptr h).generation } ∧
      m2.slots.length = m.slots.length ∧
      m2.freelist_head = headOf t ∧
      Inserted m m2 k val ∧
      Inv m2 t ∧ GInv m2 (k :: I) (k :: L) ∧ k ∉ I := by
  obtain ⟨t, hfl, hhead, hu, hlt⟩ := hi.head_cons hh
  generalize int_to_size m.freelist_head = h at hfl hhead hu hlt
  subst hfl
  have hcount := hi.count
  have hvl := hi.values_le
  have hsl := hi.slots_le
  have hlen := hi.len_eq
  have hnd := hi.nodup
  have hfree := (hi.free h).1 (List.mem_cons_self _ _)
  simp only [List.length_cons] at hcount
  obtain ⟨c2, c3, hc2, hc3, e⟩ := insert_reuse_eq m val hh hi.cap_f hi.cap_v
    (by omega) (by omega)
  rw [e] at he
  simp only [Option.some.injEq, Prod.mk.injEq] at he
  obtain ⟨rfl, rfl⟩ := he
  have hn : to_u32 m.values.length = m.values.length := to_u32_of_lt (by omega)
  have hsz : int_to_size m.freelist_head = h := by
    rw [hhead]; exact int_to_size_of_lt (by omega)
  rw [hu, hsz, hn, hlen]
  have hgen : ∀ x, ((upd m.slots.ptr h
      { index := m.values.length, generation := (m.slots.ptr h).generation }) x).generation =
      (m.slots.ptr x).generation := by
    intro x
    by_cases hx : x = h
    · subst hx; simp [upd]
    · rw [upd_other _ _ _ _ hx]
  have hht : h ∉ t := (List.nodup_cons.1 hnd).1
  have htl := hi.tail (List.cons_ne_nil _ _)
  have hhead2 : (if (m.freelist_tail : Int) ≠ m.freelist_head then ((m.slots.ptr h).index : Int)
      else -1) = headOf t := by
    cases t with
    | nil =>
      simp only [List.getLast?_singleton, Option.some.injEq] at htl
      have heq : (m.freelist_tail : Int) = m.freelist_head := by rw [hhead, ← htl]
      rw [if_neg (not_not.2 heq)]
      rfl
    | cons b t2 =>
      have hb : (m.slots.ptr h).index = b := (List.chain'_cons.1 hi.chain).1
      have hlast : m.freelist_tail ∈ b :: t2 := by
        rw [List.getLast?_cons_cons] at htl
        exact List.mem_of_getLast?_eq_some htl
      have hne : (m.freelist_tail : Int) ≠ m.freelist_head := by
        rw [hhead]
        intro hcontra
        have : m.freelist_tail = h := by exact_mod_cast hcontra
        exact hht (this ▸ hlast)
      rw [if_pos hne, hb]
      rfl
  refine ⟨h, t, rfl, hhead, rfl, rfl, hhead2, ?_, ?_, ?_, ?_⟩
  · exact ⟨upd_same _ _ _, fun x hx => upd_other _ _ _ _ hx, rfl, rfl, rfl, rfl, rfl⟩
  · dsimp only
    refine ⟨hi.cap_s, hc3, hc2, rfl, hsl, ?_, ?_, ?_, (List.nodup_cons.1 hnd).2, ?_, ?_, ?_,
      ?_, ?_⟩
    · dsimp only; omega
    · intro i hi2
      dsimp only at hi2 ⊢
      by_cases hx : i = m.values.length
      · subst hx
        simp [upd, hlt]
      · have hlt2 : i < m.values.length := by omega
        obtain ⟨d1, d2⟩ := hi.dense i hlt2
        rw [upd_other _ _ _ _ hx, upd_other _ _ _ _ (hfree.2 i hlt2)]
        exact ⟨d1, d2⟩
    · intro j hj
      dsimp only at hj ⊢
      rw [hgen]
      exact hi.gen_lt j hj
    · intro j
      dsimp only
      constructor
      · intro hj
        have hj2 := (hi.free j).1 (List.mem_cons_of_mem _ hj)
        refine ⟨hj2.1, ?_⟩
        intro i hi2
        by_cases hx : i = m.values.length
        · subst hx
          rw [upd_same]
          intro hcontra
          exact hht (hcontra ▸ hj)
        · rw [upd_other _ _ _ _ hx]
          exact hj2.2 i (by omega)
      · rintro ⟨hj1, hj2⟩
        have hne : h ≠ j := by
          have := hj2 m.values.length (by omega)
          rwa [upd_same] at this
        have hmem : j ∈ h :: t := by
          refine (hi.free j).2 ⟨hj1, ?_⟩
          intro i hi2
          have := hj2 i (by omega)
          rwa [upd_other _ _ _ _ (by omega)] at this
        rcases List.mem_cons.1 hmem with rfl | hm
        · exact absurd rfl hne
        · exact hm
    · refine chain_congr ?_ hi.chain.tail
      intro a ha
      exact upd_other _ _ _ _ (fun hcontra => hht (hcontra ▸ ha))
    · intro ht
      subst ht
      exact hhead2
    · intro b t2 ht
      subst ht
      exact hhead2
    · intro hne
      dsimp only
      cases t with
      | nil => exact absurd rfl hne
      | cons b t2 =>
        rwa [List.getLast?_cons_cons] at htl
  · refine ⟨?_, ?_, ?_, ?_⟩
    · intro k2 hk2
      rcases List.mem_cons.1 hk2 with rfl | h2
      · exact hlt
      · exact hg.issued_lt k2 h2
    · intro k2 hk2
      dsimp only
      rw [hgen]
      rcases List.mem_cons.1 hk2 with rfl | h2
      · exact le_refl _
      · exact hg.issued_le k2 h2
    · intro k2 hk2 hgen2
      dsimp only at hgen2 ⊢
      rw [hgen] at hgen2
      rcases List.mem_cons.1 hk2 with rfl | h2
      · exact ⟨m.values.length, by omega, upd_same _ _ _⟩
      · obtain ⟨i, hi1, hi2⟩ := hg.issued_live k2 h2 hgen2
        refine ⟨i, by omega, ?_⟩
        rw [upd_other _ _ _ _ (by omega)]
        exact hi2
    · intro k2
      dsimp only
      rw [hgen]
      constructor
      · intro hk2
        rcases List.mem_cons.1 hk2 with rfl | h2
        · exact ⟨List.mem_cons_self _ _, rfl⟩
        · have h3 := (hg.live_iff k2).1 h2
          exact ⟨List.mem_cons_of_mem _ h3.1, h3.2⟩
      · rintro ⟨hk2, hgen2⟩
        rcases List.mem_cons.1 hk2 with rfl | h2
        · exact List.mem_cons_self _ _
        · exact List.mem_cons_of_mem _ ((hg.live_iff k2).2 ⟨h2, hgen2⟩)
  · intro hk
    obtain ⟨i, hi1, hi2⟩ := hg.issued_live _ hk rfl
    exact hfree.2 i hi1 hi2

theorem removed_of_live {m : sm_Map α} {fl0 : List Nat} {k : sm_Key} (out : Option α)
    (hi : Inv m fl0) (hgen : (m.slots.ptr k.index).generation = k.generation)
    (hlive : ∃ i, i < m.values.length ∧ m.slot_finder.ptr i = k.index) :
    Removed m (sm_map_remove m k out).2.1 k := by
  obtain ⟨i, hi1, hi2⟩ := hlive
  have hp : posOf m k = i := by
    have := (hi.dense i hi1).2
    rw [hi2] at this
    exact this
  subst hp
  have hlen := hi.len_eq
  have hq : size_pred m.values.length = m.values.length - 1 := size_pred_of_pos (by omega)
  have hvl := remove_values_length m k out hgen
  have hfl := remove_finder_length m k out hgen
  have hfp := remove_finder_ptr m k out hgen
  have hvp := remove_values_ptr m k out hgen
  have hsp := remove_slots_ptr m k out hgen
  rw [hlen, hq] at hfl hfp
  rw [hq] at hvl hvp
  have hne : k.index ≠ m.slot_finder.ptr (m.values.length - 1) ∨
      posOf m k = m.values.length - 1 := by
    by_cases hc : posOf m k = m.values.length - 1
    · exact Or.inr hc
    · refine Or.inl (fun hcontra => hc ?_)
      rw [← hi2] at hcontra
      exact hi.inj hi1 (by omega) hcontra
  refine ⟨hi1, hi2, remove_slots_length m k out hgen, by omega, by omega, ?_,
    remove_head m k out hgen, remove_tail m k out hgen, ?_, ?_, ?_, ?_, ?_⟩
  · rw [VecOK, VecOK, VecOK, remove_slots_capacity m k out hgen,
      remove_finder_capacity m k out hgen, remove_values_capacity m k out hgen]
    exact ⟨hi.cap_s, hi.cap_f, hi.cap_v⟩
  · intro x hx
    rw [hvl] at hx ⊢
    rw [hfp]
    by_cases hc : posOf m k < m.values.length - 1
    · rw [if_pos hc]
      rfl
    · rw [if_neg hc, if_neg (by omega)]
  · intro x hx
    rw [hvl] at hx ⊢
    rw [hvp]
    by_cases hc : posOf m k < m.values.length - 1
    · rw [if_pos hc]
      rfl
    · rw [if_neg hc, if_neg (by omega)]
  · rw [hsp, if_pos rfl]
  · intro hc
    rw [hvl] at hc ⊢
    rw [hsp, hfp, if_pos hc, upd_same]
    rcases hne with h1 | h1
    · rw [if_neg (Ne.symm h1), if_pos rfl]
    · omega
  · intro x hx hx2
    rw [hvl] at hx2
    rw [hsp, hfp, if_neg hx]
    by_cases hc : posOf m k < m.values.length - 1
    · rw [if_pos hc, upd_same, if_neg (hx2 hc)]
    · rw [if_neg hc, hi2, if_neg hx]

theorem inv_of_removed {m m2 : sm_Map α} {fl0 : List Nat} {k : sm_Key}
    (hi : Inv m fl0) (hr : Removed m m2 k) : Inv m2 (k.index :: fl0) := by
  have hvl := hr.values_length
  have hp := hr.pos_lt
  have hps := hr.pos_slot
  have hks : k.index < m.slots.length := hps ▸ (hi.dense _ hp).1
  have hsl := hr.slots_length
  have hnotfree : k.index ∉ fl0 := fun hc => ((hi.free _).1 hc).2 _ hp hps
  have hfne : ∀ i, i < m.values.length → i ≠ posOf m k → m.slot_finder.ptr i ≠ k.index := by
    intro i h1 h2 hc
    exact h2 (hi.inj h1 hp (hc.trans hps.symm))
  have hfree_same : ∀ x, x ∈ fl0 → m2.slots.ptr x = m.slots.ptr x := by
    intro x hx
    have hx2 := (hi.free x).1 hx
    refine hr.slot_other x (fun hc => hnotfree (hc ▸ hx)) ?_
    intro _ hc
    exact hx2.2 m2.values.length (by omega) hc.symm
  refine ⟨hr.caps.1, hr.caps.2.1, hr.caps.2.2, hr.finder_length, hsl ▸ hi.slots_le, ?_, ?_, ?_,
    List.nodup_cons.2 ⟨hnotfree, hi.nodup⟩, ?_, ?_, ?_, ?_, ?_⟩
  · have := hi.count
    simp only [List.length_cons]
    omega
  · intro i hi2
    rw [hr.finder i hi2, hsl]
    by_cases hc : i = posOf m k
    · subst hc
      rw [if_pos rfl, hr.slot_moved hi2]
      exact ⟨(hi.dense _ (by omega)).1, rfl⟩
    · rw [if_neg hc]
      obtain ⟨d1, d2⟩ := hi.dense i (by omega)
      refine ⟨d1, ?_⟩
      rw [hr.slot_other _ (hfne i (by omega) hc)]
      · exact d2
      · intro _ hcontra
        have := hi.inj (by omega) (by omega) hcontra
        omega
  · intro x hx
    rw [hsl] at hx
    by_cases hc : x = k.index
    · rw [hc, hr.slot_key]
      exact u32_succ_lt _
    · by_cases hc2 : posOf m k < m2.values.length ∧ x = m.slot_finder.ptr m2.values.length
      · rw [hc2.2, hr.slot_moved hc2.1]
        exact hi.gen_lt _ (hi.dense _ (by omega)).1
      · rw [hr.slot_other x hc (fun h1 h2 => hc2 ⟨h1, h2⟩)]
        exact hi.gen_lt x hx
  · intro x
    rw [hsl]
    constructor
    · intro hx
      rcases List.mem_cons.1 hx with rfl | hx
      · refine ⟨hks, ?_⟩
        intro i hi2
        rw [hr.finder i hi2]
        by_cases hc : i = posOf m k
        · rw [if_pos hc]
          exact hfne _ (by omega) (by omega)
        · rw [if_neg hc]
          exact hfne i (by omega) hc
      · have hx2 := (hi.free x).1 hx
        refine ⟨hx2.1, ?_⟩
        intro i hi2
        rw [hr.finder i hi2]
        by_cases hc : i = posOf m k
        · rw [if_pos hc]
          exact hx2.2 _ (by omega)
        · rw [if_neg hc]
          exact hx2.2 _ (by omega)
    · rintro ⟨hx1, hx2⟩
      by_cases hc : x = k.index
      · exact hc ▸ List.mem_cons_self _ _
      · refine List.mem_cons_of_mem _ ((hi.free x).2 ⟨hx1, ?_⟩)
        intro i hi2 hcontra
        by_cases hip : i = posOf m k
        · exact hc (by rw [← hcontra, hip, hps])
        · by_cases hiq : i = m2.values.length
          · have hlt : posOf m k < m2.values.length := by omega
            have := hx2 (posOf m k) hlt
            rw [hr.finder _ hlt, if_pos rfl] at this
            exact this (hiq ▸ hcontra)
          · have hlt : i < m2.values.length := by omega
            have := hx2 i hlt
            rw [hr.finder _ hlt, if_neg hip] at this
            exact this hcontra
  · cases fl0 with
    | nil => exact List.chain'_singleton _
    | cons h t =>
      rw [List.chain'_cons]
      refine ⟨?_, chain_congr hfree_same hi.chain⟩
      have hh := hi.head_first h t rfl
      have hlt := ((hi.free h).1 (List.mem_cons_self _ _)).1
      have hsle := hi.slots_le
      rw [hr.slot_key, if_pos (by omega), hh]
      exact int_to_u32_of_lt (by omega)
  · intro hc
    exact absurd hc (List.cons_ne_nil _ _)
  · intro h t hc
    rw [hr.head]
    simp only [List.cons.injEq] at hc
    rw [hc.1]
  · intro _
    rw [hr.tail]
    cases fl0 with
    | nil =>
      rw [if_neg (by simp [hi.head_empty rfl])]
      rfl
    | cons h t =>
      have hh := hi.head_first h t rfl
      rw [if_pos (by omega), List.getLast?_cons_cons]
      exact hi.tail (List.cons_ne_nil _ _)

theorem ginv_of_removed {m m2 : sm_Map α} {fl0 : List Nat} {I L : List sm_Key} {k : sm_Key}
    (hi : Inv m fl0) (hg : GInv m I L) (hr : Removed m m2 k)
    (hgen : (m.slots.ptr k.index).generation = k.generation)
    (hnw : (m2.slots.ptr k.index).generation ≠ 0) :
    GInv m2 I (L.filter (fun x => x ≠ k)) := by
  have hvl := hr.values_length
  have hp := hr.pos_lt
  have hps := hr.pos_slot
  have hks : k.index < m.slots.length := hps ▸ (hi.dense _ hp).1
  have hsl := hr.slots_length
  have hklt : k.generation < 4294967296 := hgen ▸ hi.gen_lt _ hks
  have hgk : (m2.slots.ptr k.index).generation = k.generation + 1 := by
    rw [hr.slot_key] at hnw ⊢
    exact u32_succ_ne_zero hklt hnw
  have hgo : ∀ x, x ≠ k.index → (m2.slots.ptr x).generation = (m.slots.ptr x).generation := by
    intro x hx
    by_cases hc2 : posOf m k < m2.values.length ∧ x = m.slot_finder.ptr m2.values.length
    · rw [hc2.2, hr.slot_moved hc2.1]
    · rw [hr.slot_other x hx (fun h1 h2 => hc2 ⟨h1, h2⟩)]
  have hstale : ∀ k2, k2 ∈ I → k2.index = k.index →
      (m2.slots.ptr k2.index).generation ≠ k2.generation := by
    intro k2 h1 h2
    have := hg.issued_le k2 h1
    rw [h2] at this ⊢
    omega
  refine ⟨?_, ?_, ?_, ?_⟩
  · intro k2 hk2
    rw [hsl]
    exact hg.issued_lt k2 hk2
  · intro k2 hk2
    have := hg.issued_le k2 hk2
    by_cases hc : k2.index = k.index
    · rw [hc] at this ⊢
      omega
    · rw [hgo _ hc]
      exact this
  · intro k2 hk2 hm
    by_cases hc : k2.index = k.index
    · exact absurd hm (hstale k2 hk2 hc)
    · rw [hgo _ hc] at hm
      obtain ⟨i, hi1, hi2⟩ := hg.issued_live k2 hk2 hm
      have hip : i ≠ posOf m k := fun hcontra => hc (by rw [← hi2, hcontra, hps])
      by_cases hiq : i = m2.values.length
      · have hlt : posOf m k < m2.values.length := by omega
        refine ⟨posOf m k, hlt, ?_⟩
        rw [hr.finder _ hlt, if_pos rfl, ← hiq]
        exact hi2
      · have hlt : i < m2.values.length := by omega
        refine ⟨i, hlt, ?_⟩
        rw [hr.finder _ hlt, if_neg hip]
        exact hi2
  · intro k2
    simp only [List.mem_filter, ne_eq, decide_not, Bool.not_eq_true', decide_eq_false_iff_not]
    constructor
    · rintro ⟨h1, h2⟩
      have h3 := (hg.live_iff k2).1 h1
      refine ⟨h3.1, ?_⟩
      have hc : k2.index ≠ k.index := by
        intro hc
        apply h2
        have : k2.generation = k.generation := by rw [← h3.2, hc, hgen]
        cases k2; cases k; simp_all
      rw [hgo _ hc]
      exact h3.2
    · rintro ⟨h1, h2⟩
      have hc : k2.index ≠ k.index := fun hc => hstale k2 h1 hc h2
      rw [hgo _ hc] at h2
      exact ⟨(hg.live_iff k2).2 ⟨h1, h2⟩, fun hcontra => hc (by rw [hcontra])⟩

theorem inv_new (value_size capacity : Nat) (ms : Nat → sm_Slot) (mf : Nat → Nat)
    (mv : Nat → α) (tail : Nat) (h1 : 1 ≤ capacity) (h2 : capacity < 18446744073709551616) :
    Inv (sm_map_new value_size capacity ms mf mv tail) [] ∧
      GInv (sm_map_new value_size capacity ms mf mv tail) [] [] := by
  constructor
  · refine ⟨⟨h1, h2⟩, ⟨h1, h2⟩, ⟨h1, h2⟩, rfl, Nat.zero_le _, rfl, ?_, ?_, List.nodup_nil, ?_,
      List.chain'_nil, fun _ => rfl, ?_, fun h => absurd rfl h⟩
    · intro i hi; exact absurd hi (Nat.not_lt_zero _)
    · intro i hi; exact absurd hi (Nat.not_lt_zero _)
    · intro j
      simp only [List.not_mem_nil, false_iff, not_and]
      intro hj; exact absurd hj (Nat.not_lt_zero _)
    · intro h t ht; exact absurd ht.symm (List.cons_ne_nil _ _)
  · refine ⟨?_, ?_, ?_, ?_⟩
    · intro k hk; exact absurd hk (List.not_mem_nil _)
    · intro k hk; exact absurd hk (List.not_mem_nil _)
    · intro k hk; exact absurd hk (List.not_mem_nil _)
    · intro k; simp

/-- A successful remove of a live key adds one to the generation of its slot and
changes no other generation, when the counter does not wrap. -/
theorem removed_gen {m m2 : sm_Map α} {fl0 : List Nat} {k : sm_Key}
    (hi : Inv m fl0) (hr : Removed m m2 k)
    (hgen : (m.slots.ptr k.index).generation = k.generation)
    (hnw : (m2.slots.ptr k.index).generation ≠ 0) (x : Nat) :
    (m2.slots.ptr x).generation =
      if x = k.index then (m.slots.ptr x).generation + 1 else (m.slots.ptr x).generation := by
  have hks : k.index < m.slots.length := hr.pos_slot ▸ (hi.dense _ hr.pos_lt).1
  have hklt : k.generation < 4294967296 := hgen ▸ hi.gen_lt _ hks
  by_cases hx : x = k.index
  · rw [if_pos hx, hx, hgen]
    rw [hr.slot_key] at hnw ⊢
    exact u32_succ_ne_zero hklt hnw
  · rw [if_neg hx]
    by_cases hc2 : posOf m k < m2.values.length ∧ x = m.slot_finder.ptr m2.values.length
    · rw [hc2.2, hr.slot_moved hc2.1]
    · rw [hr.slot_other x hx (fun h1 h2 => hc2 ⟨h1, h2⟩)]

/-- Every state of a history through states in range satisfies the invariants, if the
first state does; slots are never discarded, generations never decrease and issued
keys stay issued. -/
theorem run_inv {m0 m : sm_Map α} {I0 L0 I L : List sm_Key}
    (hrun : Run InRange m0 I0 L0 m I L) (h0 : ∃ fl, Inv m0 fl) (g0 : GInv m0 I0 L0) :
    ((∃ fl, Inv m fl) ∧ GInv m I L) ∧ m0.slots.length ≤ m.slots.length ∧
      (∀ x, x < m0.slots.length →
        (m0.slots.ptr x).generation ≤ (m.slots.ptr x).generation) ∧
      (∀ k, k ∈ I0 → k ∈ I) := by
  induction hrun with
  | start => exact ⟨⟨h0, g0⟩, le_refl _, fun _ _ => le_refl _, fun _ h => h⟩
  | @insert m1 m2 I1 L1 val k _ he hp ih =>
    obtain ⟨⟨⟨fl, hi⟩, hg⟩, hm1, hm2, hm3⟩ := ih
    by_cases hh : m1.freelist_head = -1
    · obtain ⟨hk, hl, _, hins, h5, h6, _⟩ := inv_insert_fresh hi hg hh he hp.1
      refine ⟨⟨⟨[], h5⟩, h6⟩, by omega, ?_, fun k hk => List.mem_cons_of_mem _ (hm3 k hk)⟩
      intro x hx
      rw [hins.slot_other x (by rw [hk]; dsimp only; omega)]
      exact hm2 x hx
    · obtain ⟨h, t, hfl, _, hk, hl, _, hins, h5, h6, _⟩ := inv_insert_reuse hi hg hh he
      refine ⟨⟨⟨t, h5⟩, h6⟩, by omega, ?_, fun k hk => List.mem_cons_of_mem _ (hm3 k hk)⟩
      intro x hx
      by_cases hx2 : x = k.index
      · rw [hx2, hins.slot_key]
        have := hm2 x hx
        rw [hx2] at this
        rw [hk] at this ⊢
        exact this
      · rw [hins.slot_other x hx2]
        exact hm2 x hx
  | @remove m1 m2 I1 L1 k out out2 b _ hk he hp ih =>
    obtain ⟨⟨⟨fl, hi⟩, hg⟩, hm1, hm2, hm3⟩ := ih
    by_cases hgen : (m1.slots.ptr k.index).generation = k.generation
    · have hb : b = true := by
        have := remove_fst m1 k out hgen
        rw [he] at this
        exact this
      have hm : m2 = (sm_map_remove m1 k out).2.1 := by rw [he]
      have hr : Removed m1 m2 k := hm ▸ removed_of_live out hi hgen (hg.issued_live k hk hgen)
      have hks : k.index < m2.slots.length := by
        rw [hr.slots_length]; exact hg.issued_lt k hk
      subst hb
      have hg2 := ginv_of_removed hi hg hr hgen (hp.2 _ hks)
      refine ⟨⟨⟨_, inv_of_removed hi hr⟩, hg2⟩, by rw [hr.slots_length]; exact hm1, ?_, hm3⟩
      intro x hx
      have h1 := hm2 x hx
      have h2 := removed_gen hi hr hgen (hp.2 _ hks) x
      split at h2 <;> omega
    · rw [remove_stale m1 k out hgen] at he
      simp only [Prod.mk.injEq] at he
      obtain ⟨rfl, rfl, _⟩ := he
      exact ⟨⟨⟨fl, hi⟩, hg⟩, hm1, hm2, hm3⟩

/-- Every state reachable through states in range satisfies the invariants. -/
theorem reach_inv {m : sm_Map α} {I L : List sm_Key} (hr : Reach InRange m I L) :
    (∃ fl, Inv m fl) ∧ GInv m I L := by
  obtain ⟨vs, cap, ms, mf, mv, tl, h1, h2, hrun⟩ := hr
  obtain ⟨a, b⟩ := inv_new vs cap ms mf mv tl h1 h2
  exact (run_inv hrun ⟨[], a⟩ b).1

theorem get_of_inserted {m m2 : sm_Map α} {k : sm_Key} {v : α}
    (hins : Inserted m m2 k (some v)) : sm_map_get m2 k = some v := by
  unfold sm_map_get sm_vec_get
  rw [hins.slot_key, hins.values_ptr]
  simp [pushed, upd]

/-- An insert into a state satisfying the invariants returns, when it does not create
the slot of index `2 ^ 32`. -/
theorem insert_returns {m : sm_Map α} {fl : List Nat} (hi : Inv m fl) (val : Option α) :
    ∃ k m2, sm_map_insert m val = some (k, m2) ∧
      (m.freelist_head = -1 → m2.slots.length = m.slots.length + 1) ∧
      (m.freelist_head ≠ -1 → m2.slots.length = m.slots.length) := by
  have h1 := hi.values_le
  have h2 := hi.slots_le
  have h3 := hi.len_eq
  by_cases hh : m.freelist_head = -1
  · obtain ⟨c1, c2, c3, _, _, _, e⟩ := insert_fresh_eq m val hh hi.cap_s hi.cap_f hi.cap_v
      (by omega) (by omega) (by omega)
    exact ⟨_, _, e, fun _ => rfl, fun h => absurd hh h⟩
  · obtain ⟨c2, c3, _, _, e⟩ := insert_reuse_eq m val hh hi.cap_f hi.cap_v
      (by omega) (by omega)
    exact ⟨_, _, e, fun h => absurd h hh, fun _ => rfl⟩

/-- The description of an insert into a state satisfying the invariants. -/
theorem inserted_of_inv {m m2 : sm_Map α} {fl : List Nat} {I L : List sm_Key}
    {val : Option α} {k : sm_Key} (hi : Inv m fl) (hg : GInv m I L)
    (he : sm_map_insert m val = some (k, m2)) (hb : m2.slots.length ≤ 4294967296) :
    Inserted m m2 k val ∧ k ∉ I ∧ k.index < m2.slots.length ∧
      (∀ i, i < m.values.length → m.slot_finder.ptr i ≠ k.index) := by
  by_cases hh : m.freelist_head = -1
  · obtain ⟨hk, hl, _, hins, _, _, hni⟩ := inv_insert_fresh hi hg hh he hb
    refine ⟨hins, hni, by rw [hk, hl]; exact Nat.lt_succ_self _, ?_⟩
    intro i hi2
    have := (hi.dense i hi2).1
    rw [hk]
    dsimp only
    omega
  · obtain ⟨h, t, hfl, _, hk, hl, _, hins, _, _, hni⟩ := inv_insert_reuse hi hg hh he
    subst hfl
    have hf := (hi.free h).1 (List.mem_cons_self _ _)
    refine ⟨hins, hni, by rw [hk, hl]; exact hf.1, ?_⟩
    rw [hk]
    exact hf.2

/-- Claim C1, as amended: in every state reachable through states in range, an insert
of `v` that does not create the slot of index `2 ^ 32` returns a key, and `sm_map_get`
on that key immediately afterwards is present and refers to a value equal to `v`. -/
theorem insert_get_round_trip {m : sm_Map α} {I L : List sm_Key}
    (hr : Reach InRange m I L) (v : α)
    (hb : m.freelist_head = -1 → m.slots.length < 4294967296) :
    ∃ k m2, sm_map_insert m (some v) = some (k, m2) ∧ sm_map_get m2 k = some v := by
  obtain ⟨⟨fl, hi⟩, hg⟩ := reach_inv hr
  obtain ⟨k, m2, he, h1, h2⟩ := insert_returns hi (some v)
  have hle : m2.slots.length ≤ 4294967296 := by
    have := hi.slots_le
    by_cases hh : m.freelist_head = -1
    · have := hb hh
      have := h1 hh
      omega
    · have := h2 hh
      omega
  exact ⟨k, m2, he, get_of_inserted (inserted_of_inv hi hg he hle).1⟩

theorem fill_succ (n : Nat) :
    fill (n + 1) =
      match fill n with
      | none => none
      | some (m, I) =>
        match sm_map_insert m (some n) with
        | none => none
        | some (k, m2) => some (m2, k :: I) := rfl

theorem fill_full (n : Nat) (hn : n ≤ 4611686018427387904) :
    ∃ m I, fill n = some (m, I) ∧ Reach Any m I I ∧ Full n m I := by
  induction n with
  | zero =>
    refine ⟨_, _, rfl, ⟨4, 1, _, _, _, 0, le_refl _, by norm_num, Run.start⟩, ?_⟩
    have hc : (1 : Nat) ≤ 1 ∧ (1 : Nat) < 18446744073709551616 := ⟨le_refl _, by norm_num⟩
    refine ⟨rfl, rfl, rfl, rfl, ⟨hc, hc, hc⟩, ?_, ?_, ?_, ?_⟩
    · intro j hj; exact absurd hj (Nat.not_lt_zero _)
    · intro j hj; exact absurd hj (Nat.not_lt_zero _)
    · intro j hj; exact absurd hj (Nat.not_lt_zero _)
    · intro k
      simp
  | succ n ih =>
    obtain ⟨m, I, hf, hr, hfull⟩ := ih (by omega)
    obtain ⟨c1, c2, c3, hc1, hc2, hc3, e⟩ := insert_fresh_eq m (some n) hfull.head
      hfull.caps.1 hfull.caps.2.1 hfull.caps.2.2
      (by rw [hfull.slots_length]; omega) (by rw [hfull.finder_length]; omega)
      (by rw [hfull.values_length]; omega)
    obtain ⟨vs, cap, ms, mf, mv, tl, h1, h2, hrun⟩ := hr
    refine ⟨_, _, by rw [fill, hf]; simp only [e], ⟨vs, cap, ms, mf, mv, tl, h1, h2,
      Run.insert hrun e trivial⟩, ?_⟩
    rw [hfull.slots_length, hfull.values_length, hfull.finder_length]
    refine ⟨rfl, rfl, rfl, hfull.head, ⟨hc1, hc3, hc2⟩, ?_, ?_, ?_, ?_⟩
    · intro j hj
      dsimp only
      by_cases h : j = n
      · rw [h, upd_same]
      · rw [upd_other _ _ _ _ h]
        exact hfull.slots j (by omega)
    · intro j hj
      dsimp only
      by_cases h : j = n
      · rw [h, upd_same]
      · rw [upd_other _ _ _ _ h]
        exact hfull.finder j (by omega)
    · intro j hj
      dsimp only [pushed]
      rw [hfull.values_length]
      by_cases h : j = n
      · rw [h, upd_same]
      · rw [upd_other _ _ _ _ h]
        exact hfull.values j (by omega)
    · intro k
      rw [List.mem_cons, hfull.keys]
      constructor
      · rintro (h | ⟨i, hi, h⟩)
        · exact ⟨n, Nat.lt_succ_self _, h⟩
        · exact ⟨i, by omega, h⟩
      · rintro ⟨i, hi, h⟩
        by_cases hc : i = n
        · exact Or.inl (hc ▸ h)
        · exact Or.inr ⟨i, by omega, h⟩

/-- Claim C1 fails as stated: after inserting `0, …, 2 ^ 32 - 1` into a new map, the
insert of `2 ^ 32` returns the key `{0, 1}`, on which `sm_map_get` yields the first
value, `0`. -/
theorem insert_get_fails_past_u32 :
    ∃ m I k m2, fill 4294967296 = some (m, I) ∧ Reach Any m I I ∧
      sm_map_insert m (some 4294967296) = some (k, m2) ∧
      sm_map_get m2 k = some 0 ∧ sm_map_get m2 k ≠ some 4294967296 := by
  obtain ⟨m, I, hf, hr, hm⟩ := fill_full 4294967296 (by norm_num)
  obtain ⟨m2, I2, hf2, _, hm2⟩ := fill_full (4294967296 + 1) (by norm_num)
  obtain ⟨c1, c2, c3, _, _, _, e⟩ := insert_fresh_eq m (some 4294967296) hm.head
    hm.caps.1 hm.caps.2.1 hm.caps.2.2
    (by rw [hm.slots_length]; norm_num) (by rw [hm.finder_length]; norm_num)
    (by rw [hm.values_length]; norm_num)
  rw [fill_succ, hf] at hf2
  dsimp only at hf2
  rw [e] at hf2
  simp only [Option.some.injEq, Prod.mk.injEq] at hf2
  rw [hf2.1] at e
  have h0 : to_u32 0 = 0 := rfl
  have hN : to_u32 4294967296 = 0 := rfl
  have hget : sm_map_get m2 { index := to_u32 m.slots.length, generation := 1 } = some 0 := by
    unfold sm_map_get sm_vec_get
    rw [hm.slots_length, hN, hm2.slots 0 (by norm_num), h0]
    simp only [if_true]
    rw [hm2.values 0 (by norm_num)]
  refine ⟨m, I, _, _, hf, hr, e, hget, ?_⟩
  rw [hget]
  simp

theorem w1_insert : sm_map_insert w0 (some 5) = some ({ index := 0, generation := 1 }, w1) :=
  rfl

theorem w2_insert : sm_map_insert w1 (some 6) = some ({ index := 1, generation := 1 }, w2) :=
  rfl

theorem w3_remove :
    sm_map_remove w2 { index := 0, generation := 1 } none = (true, w3, none) := rfl

theorem w0_reach : Reach InRange w0 [] [] :=
  ⟨4, 4, _, _, _, 0, by decide, by decide, Run.start⟩

theorem w1_range : InRange w1 := by
  refine ⟨by decide, ?_⟩
  intro j hj
  have : j = 0 := Nat.lt_one_iff.1 hj
  subst this
  decide

theorem w1_reach :
    Reach InRange w1 [{ index := 0, generation := 1 }] [{ index := 0, generation := 1 }] := by
  obtain ⟨a, b, c, d, e, f, h1, h2, hrun⟩ := w0_reach
  exact ⟨a, b, c, d, e, f, h1, h2, Run.insert hrun w1_insert w1_range⟩

theorem w2_range : InRange w2 := by
  refine ⟨by decide, ?_⟩
  intro j hj
  have h2 : j < 2 := hj
  interval_cases j <;> decide

theorem w2_reach :
    Reach InRange w2 [{ index := 1, generation := 1 }, { index := 0, generation := 1 }]
      [{ index := 1, generation := 1 }, { index := 0, generation := 1 }] := by
  obtain ⟨a, b, c, d, e, f, h1, h2, hrun⟩ := w1_reach
  exact ⟨a, b, c, d, e, f, h1, h2, Run.insert hrun w2_insert w2_range⟩

theorem w3_range : InRange w3 := by
  refine ⟨by decide, ?_⟩
  intro j hj
  have h2 : j < 2 := hj
  interval_cases j <;> decide

theorem w3_reach :
    Reach InRange w3 [{ index := 1, generation := 1 }, { index := 0, generation := 1 }]
      [{ index := 1, generation := 1 }] := by
  obtain ⟨a, b, c, d, e, f, h1, h2, hrun⟩ := w2_reach
  exact ⟨a, b, c, d, e, f, h1, h2,
    Run.remove hrun (List.mem_cons_of_mem _ (List.mem_cons_self _ _)) w3_remove w3_range⟩

/-- Witness of `insert_get_round_trip`: the insert of `7` into `w3`, which recycles a
slot. -/
theorem insert_get_round_trip_witness :
    Reach InRange w3 [{ index := 1, generation := 1 }, { index := 0, generation := 1 }]
      [{ index := 1, generation := 1 }] ∧
    (w3.freelist_head = -1 → w3.slots.length < 4294967296) ∧
    ∃ k m2, sm_map_insert w3 (some 7) = some (k, m2) ∧ sm_map_get m2 k = some 7 :=
  ⟨w3_reach, by decide, insert_get_round_trip w3_reach 7 (by decide)⟩

theorem get_eq_some_iff (m : sm_Map α) (k : sm_Key) (v : α) :
    sm_map_get m k = some v ↔
      (m.slots.ptr k.index).generation = k.generation ∧
        m.values.ptr (m.slots.ptr k.index).index = v := by
  unfold sm_map_get sm_vec_get
  by_cases h : (m.slots.ptr k.index).generation = k.generation
  · simp [h]
  · simp [h]

theorem get_eq_none_iff (m : sm_Map α) (k : sm_Key) :
    sm_map_get m k = none ↔ (m.slots.ptr k.index).generation ≠ k.generation := by
  unfold sm_map_get sm_vec_get
  by_cases h : (m.slots.ptr k.index).generation = k.generation
  · simp [h]
  · simp [h]

/-- What the invariants say of a live key. -/
theorem live_key {m : sm_Map α} {fl : List Nat} {I L : List sm_Key} {k : sm_Key}
    (hi : Inv m fl) (hg : GInv m I L) (hk : k ∈ L) :
    k ∈ I ∧ (m.slots.ptr k.index).generation = k.generation ∧
      k.index < m.slots.length ∧ posOf m k < m.values.length ∧
      m.slot_finder.ptr (posOf m k) = k.index ∧ k.index ∉ fl := by
  obtain ⟨h1, h2⟩ := (hg.live_iff k).1 hk
  obtain ⟨i, hi1, hi2⟩ := hg.issued_live k h1 h2
  have hp : posOf m k = i := by
    have := (hi.dense i hi1).2
    rw [hi2] at this
    exact this
  rw [hp]
  exact ⟨h1, h2, hg.issued_lt k h1, hi1, hi2, fun hc => ((hi.free _).1 hc).2 i hi1 hi2⟩

/-- Claim C2, as amended: in every state reachable through states in range, the value
`sm_map_get` yields for a live key `k` is the same after an insert of any value and
after the remove of any other live key. -/
theorem get_stable {m : sm_Map α} {I L : List sm_Key} {k : sm_Key} {v : α}
    (hr : Reach InRange m I L) (hk : k ∈ L) (hv : sm_map_get m k = some v) :
    (∀ val k2 m2, sm_map_insert m val = some (k2, m2) → sm_map_get m2 k = some v) ∧
    (∀ k2 out, k2 ∈ L → k2 ≠ k →
      (sm_map_remove m k2 out).1 = true ∧
        sm_map_get (sm_map_remove m k2 out).2.1 k = some v) := by
  obtain ⟨⟨fl, hi⟩, hg⟩ := reach_inv hr
  obtain ⟨hkI, hgen, hks, hp, hps, hnf⟩ := live_key hi hg hk
  obtain ⟨_, hval⟩ := (get_eq_some_iff m k v).1 hv
  have h1 := hi.values_le
  have h2 := hi.slots_le
  have h3 := hi.len_eq
  constructor
  · intro val k2 m2 he
    have hpv : pushed m.values val (posOf m k) = m.values.ptr (posOf m k) := by
      cases val with
      | none => rfl
      | some x => exact upd_other _ _ _ _ (by omega)
    by_cases hh : m.freelist_head = -1
    · obtain ⟨c1, c2, c3, _, _, _, e⟩ := insert_fresh_eq m val hh hi.cap_s hi.cap_f hi.cap_v
        (by omega) (by omega) (by omega)
      rw [e] at he
      simp only [Option.some.injEq, Prod.mk.injEq] at he
      rw [← he.2, get_eq_some_iff]
      dsimp only
      rw [upd_other _ _ _ _ (by omega)]
      exact ⟨hgen, hpv.trans hval⟩
    · obtain ⟨c2, c3, _, _, e⟩ := insert_reuse_eq m val hh hi.cap_f hi.cap_v
        (by omega) (by omega)
      obtain ⟨t, hfl, _, _, _⟩ := hi.head_cons hh
      have hne : k.index ≠ int_to_size m.freelist_head := by
        intro hc
        apply hnf
        rw [hfl, hc]
        exact List.mem_cons_self _ _
      rw [e] at he
      simp only [Option.some.injEq, Prod.mk.injEq] at he
      rw [← he.2, get_eq_some_iff]
      dsimp only
      rw [upd_other _ _ _ _ hne]
      exact ⟨hgen, hpv.trans hval⟩
  · intro k2 out hk2 hne
    obtain ⟨hk2I, hgen2, _, hp2, hps2, _⟩ := live_key hi hg hk2
    have hidx : k.index ≠ k2.index := by
      intro hc
      apply hne
      have : k2.generation = k.generation := by rw [← hgen2, ← hc, hgen]
      cases k2; cases k; simp_all
    have hpp : posOf m k ≠ posOf m k2 := fun hc => hidx (by rw [← hps, hc, hps2])
    have hrm := removed_of_live out hi hgen2 ⟨_, hp2, hps2⟩
    refine ⟨remove_fst m k2 out hgen2, ?_⟩
    generalize (sm_map_remove m k2 out).2.1 = m2 at hrm
    have hvl := hrm.values_length
    rw [get_eq_some_iff]
    by_cases hc : posOf m k2 < m2.values.length ∧ k.index = m.slot_finder.ptr m2.values.length
    · have hlast : posOf m k = m2.values.length := by
        have := (hi.dense m2.values.length (by omega)).2
        rw [← hc.2] at this
        exact this
      rw [hc.2, hrm.slot_moved hc.1]
      dsimp only
      rw [hrm.values _ hc.1, if_pos rfl, ← hc.2, ← hlast]
      exact ⟨hgen, hval⟩
    · rw [hrm.slot_other _ hidx (fun a b => hc ⟨a, b⟩)]
      have hlt : posOf m k < m2.values.length := by
        by_contra hcon
        have hlast : posOf m k = m2.values.length := by omega
        apply hc
        refine ⟨?_, by rw [← hlast, hps]⟩
        by_contra hcon2
        exact hpp (by omega)
      refine ⟨hgen, ?_⟩
      have := hrm.values _ hlt
      rw [if_neg hpp] at this
      exact this.trans hval

/-- Claim C2 fails as stated: after inserting `0, …, 2 ^ 32` into a new map, the keys
`{0, 1}` and `{1, 1}` are live and `sm_map_get` on `{0, 1}` yields `0`; after the
remove of `{1, 1}` it yields `2 ^ 32`. -/
theorem get_unstable_past_u32 :
    ∃ m I, fill 4294967297 = some (m, I) ∧ Reach Any m I I ∧
      ({ index := 0, generation := 1 } : sm_Key) ∈ I ∧
      ({ index := 1, generation := 1 } : sm_Key) ∈ I ∧
      sm_map_get m { index := 0, generation := 1 } = some 0 ∧
      (sm_map_remove m { index := 1, generation := 1 } none).1 = true ∧
      sm_map_get (sm_map_remove m { index := 1, generation := 1 } none).2.1
        { index := 0, generation := 1 } = some 4294967296 := by
  obtain ⟨m, I, hf, hr, hm⟩ := fill_full (4294967296 + 1) (by norm_num)
  have h0 : to_u32 0 = 0 := rfl
  have h1 : to_u32 1 = 1 := rfl
  have hN : to_u32 4294967296 = 0 := rfl
  have hs0 : m.slots.ptr 0 = { index := 0, generation := 1 } := by
    rw [hm.slots 0 (by norm_num), h0]
  have hs1 : m.slots.ptr 1 = { index := 1, generation := 1 } := by
    rw [hm.slots 1 (by norm_num), h1]
  have hgen : (m.slots.ptr ({ index := 1, generation := 1 } : sm_Key).index).generation =
      ({ index := 1, generation := 1 } : sm_Key).generation := by
    dsimp only
    rw [hs1]
  have hpos : posOf m { index := 1, generation := 1 } = 1 := by
    unfold posOf
    dsimp only
    rw [hs1]
  have hpred : size_pred (4294967296 + 1) = 4294967296 := rfl
  have hfp := remove_finder_ptr m _ none hgen
  have hvp := remove_values_ptr m _ none hgen
  rw [hpos, hm.finder_length, hpred, if_pos (by norm_num), hm.finder 4294967296 (by norm_num),
    hN] at hfp
  rw [hpos, hm.values_length, hpred, if_pos (by norm_num), hm.values 4294967296 (by norm_num)]
    at hvp
  have hsp := remove_slots_ptr m _ none hgen 0
  rw [hpos, hfp, upd_same] at hsp
  dsimp only at hsp
  rw [if_neg (by norm_num), if_pos rfl, hs0] at hsp
  refine ⟨m, I, hf, hr, (hm.keys _).2 ⟨0, by norm_num, by rw [h0]⟩,
    (hm.keys _).2 ⟨1, by norm_num, by rw [h1]⟩, ?_, remove_fst m _ none hgen, ?_⟩
  · rw [get_eq_some_iff]
    dsimp only
    rw [hs0]
    exact ⟨rfl, hm.values 0 (by norm_num)⟩
  · rw [get_eq_some_iff]
    dsimp only
    rw [hsp, hvp]
    exact ⟨rfl, upd_same _ _ _⟩

theorem w4_spun : Spun 2 w4 :=
  ⟨rfl, rfl, rfl, rfl, rfl, ⟨⟨by decide, by decide⟩, ⟨by decide, by decide⟩,
    ⟨by decide, by decide⟩⟩, rfl, rfl, rfl, rfl, rfl⟩

theorem spin_succ (m : sm_Map Nat) (t : Nat) :
    spin m (t + 1) =
      match spin m t with
      | none => none
      | some m1 =>
        match sm_map_insert m1 (some 7) with
        | none => none
        | some (k, m2) => some (sm_map_remove m2 k none).2.1 := rfl

theorem spun_insert {g : Nat} {m : sm_Map Nat} (h : Spun g m) :
    ∃ m1, sm_map_insert m (some 7) = some ({ index := 1, generation := g }, m1) ∧
      Mid g m1 := by
  have hh : m.freelist_head ≠ -1 := by rw [h.head]; decide
  obtain ⟨c2, c3, hc2, hc3, e⟩ := insert_reuse_eq m (some 7) hh h.caps.2.1 h.caps.2.2
    (by rw [h.finder_length]; norm_num) (by rw [h.values_length]; norm_num)
  have hu : int_to_u32 1 = 1 := rfl
  have hz : int_to_size 1 = 1 := rfl
  have ht : to_u32 1 = 1 := rfl
  rw [h.head, hu, hz, h.slot1, h.values_length, h.finder_length, h.tail, ht] at e
  simp only [ne_eq, Nat.cast_one, not_true_eq_false, if_false] at e
  refine ⟨_, e, h.slots_length, rfl, rfl, rfl, ⟨h.caps.1, hc3, hc2⟩, ?_, ?_, ?_, ?_, ?_⟩
  · dsimp only
    rw [upd_other _ _ _ _ (by decide)]
    exact h.slot0
  · dsimp only
    exact upd_same _ _ _
  · dsimp only
    rw [upd_other _ _ _ _ (by decide)]
    exact h.finder0
  · dsimp only
    exact upd_same _ _ _
  · dsimp only [pushed]
    rw [h.values_length, upd_other _ _ _ _ (by decide)]
    exact h.value0

theorem mid_remove {g : Nat} {m1 : sm_Map Nat} (h : Mid g m1) :
    sm_map_remove m1 { index := 1, generation := g } none =
        (true, (sm_map_remove m1 { index := 1, generation := g } none).2.1, none) ∧
      Spun (u32_succ g) (sm_map_remove m1 { index := 1, generation := g } none).2.1 := by
  have hp2 : size_pred 2 = 1 := rfl
  have hgen : (m1.slots.ptr ({ index := 1, generation := g } : sm_Key).index).generation =
      ({ index := 1, generation := g } : sm_Key).generation := by
    dsimp only; rw [h.slot1]
  have hpos : posOf m1 { index := 1, generation := g } = 1 := by
    unfold posOf; dsimp only; rw [h.slot1]
  have hhd := h.head
  have hfp := remove_finder_ptr m1 _ none hgen
  have hvp := remove_values_ptr m1 _ none hgen
  rw [hpos, h.finder_length, hp2, if_neg (lt_irrefl _)] at hfp
  rw [hpos, h.values_length, hp2, if_neg (lt_irrefl _)] at hvp
  have hsp := remove_slots_ptr m1 _ none hgen
  rw [hpos, hfp, h.finder1] at hsp
  refine ⟨?_, ?_⟩
  · have a := remove_fst m1 _ none hgen
    have b := remove_out m1 _ none hgen
    rw [Prod.ext_iff, Prod.ext_iff]
    exact ⟨a, rfl, b⟩
  · refine ⟨?_, ?_, ?_, remove_head m1 _ none hgen, ?_, ?_, ?_, ?_, ?_, ?_, ?_⟩
    · rw [remove_slots_length m1 _ none hgen]; exact h.slots_length
    · rw [remove_values_length m1 _ none hgen, h.values_length, hp2]
    · rw [remove_finder_length m1 _ none hgen, h.finder_length, hp2]
    · rw [remove_tail m1 _ none hgen, if_neg (not_not.2 hhd)]
    · rw [VecOK, VecOK, VecOK, remove_slots_capacity m1 _ none hgen,
        remove_finder_capacity m1 _ none hgen, remove_values_capacity m1 _ none hgen]
      exact h.caps
    · rw [hsp 0]
      dsimp only
      rw [if_neg (by decide), if_neg (by decide)]
      exact h.slot0
    · rw [hsp 1]
      dsimp only
      rw [if_pos rfl, if_neg (not_not.2 hhd)]
    · rw [hfp]; exact h.finder0
    · rw [hfp]; exact h.finder1
    · rw [hvp]; exact h.value0

theorem run_mono {P Q : sm_Map α → Prop} (hPQ : ∀ m, P m → Q m) {m0 m : sm_Map α}
    {I0 L0 I L : List sm_Key} (h : Run P m0 I0 L0 m I L) : Run Q m0 I0 L0 m I L := by
  induction h with
  | start => exact Run.start
  | insert _ he hp ih => exact Run.insert ih he (hPQ _ hp)
  | remove _ hk he hp ih => exact Run.remove ih hk he (hPQ _ hp)

theorem run_trans {P : sm_Map α → Prop} {m0 m1 m : sm_Map α}
    {I0 L0 I1 L1 I L : List sm_Key} (h1 : Run P m0 I0 L0 m1 I1 L1)
    (h2 : Run P m1 I1 L1 m I L) : Run P m0 I0 L0 m I L := by
  induction h2 with
  | start => exact h1
  | insert _ he hp ih => exact Run.insert ih he hp
  | remove _ hk he hp ih => exact Run.remove ih hk he hp

theorem reach_any {P : sm_Map α → Prop} {m : sm_Map α} {I L : List sm_Key}
    (h : Reach P m I L) : Reach Any m I L := by
  obtain ⟨a, b, c, d, e, f, h1, h2, hrun⟩ := h
  exact ⟨a, b, c, d, e, f, h1, h2, run_mono (fun _ _ => trivial) hrun⟩

theorem reach_run {P : sm_Map α → Prop} {m1 m : sm_Map α} {I1 L1 I L : List sm_Key}
    (h1 : Reach P m1 I1 L1) (h2 : Run P m1 I1 L1 m I L) : Reach P m I L := by
  obtain ⟨a, b, c, d, e, f, h3, h4, hrun⟩ := h1
  exact ⟨a, b, c, d, e, f, h3, h4, run_trans hrun h2⟩

theorem spin_run {g0 : Nat} {m0 : sm_Map Nat} (I0 L0 : List sm_Key) (h0 : Spun g0 m0)
    (hg0 : g0 < 4294967296) (t : Nat) :
    ∃ m I L, spin m0 t = some m ∧ Run Any m0 I0 L0 m I L ∧
      Spun ((g0 + t) % 4294967296) m ∧ (∀ k, k ∈ I0 → k ∈ I) ∧
      (∀ k, k ∈ L0 → k.index = 0 → k ∈ L) := by
  induction t with
  | zero =>
    refine ⟨m0, I0, L0, rfl, Run.start, ?_, fun _ h => h, fun _ h _ => h⟩
    rw [Nat.add_zero, Nat.mod_eq_of_lt hg0]
    exact h0
  | succ t ih =>
    obtain ⟨m, I, L, hs, hrun, hsp, hI, hL⟩ := ih
    obtain ⟨m1, e, hmid⟩ := spun_insert hsp
    obtain ⟨er, hsp2⟩ := mid_remove hmid
    have hu : u32_succ ((g0 + t) % 4294967296) = (g0 + (t + 1)) % 4294967296 := by
      unfold u32_succ; omega
    rw [hu] at hsp2
    refine ⟨_, _, _, ?_, Run.remove (Run.insert hrun e trivial) (List.mem_cons_self _ _) er
      trivial, hsp2, fun k hk => List.mem_cons_of_mem _ (hI k hk), ?_⟩
    · rw [spin_succ, hs]
      dsimp only
      rw [e]
    · intro k hk hk0
      rw [if_pos rfl, List.mem_filter]
      refine ⟨List.mem_cons_of_mem _ (hL k hk hk0), ?_⟩
      rw [decide_eq_true_iff]
      intro hc
      rw [hc] at hk0
      exact absurd hk0 Nat.one_ne_zero

/-- Witness of `get_stable`: in `w2` the key `{0, 1}` is live with value `5`, and
still yields `5` after the remove of the live key `{1, 1}`. -/
theorem get_stable_witness :
    Reach InRange w2 [{ index := 1, generation := 1 }, { index := 0, generation := 1 }]
      [{ index := 1, generation := 1 }, { index := 0, generation := 1 }] ∧
    sm_map_get w2 { index := 0, generation := 1 } = some 5 ∧
    (∀ val k2 m2, sm_map_insert w2 val = some (k2, m2) →
      sm_map_get m2 { index := 0, generation := 1 } = some 5) ∧
    sm_map_get (sm_map_remove w2 { index := 1, generation := 1 } none).2.1
      { index := 0, generation := 1 } = some 5 :=
  ⟨w2_reach, rfl,
    (get_stable w2_reach (List.mem_cons_of_mem _ (List.mem_cons_self _ _)) rfl).1,
    ((get_stable w2_reach (List.mem_cons_of_mem _ (List.mem_cons_self _ _)) rfl).2
      { index := 1, generation := 1 } none (List.mem_cons_self _ _) (by decide)).2⟩

/-- Claim C3, as amended: in every state reachable through states in range, the remove
of a live key `k` whose stored value is `v` returns true, writes `v` to `out_val` when
one is given, and decreases the length of `values` by exactly 1. -/
theorem remove_returns_stored {m : sm_Map α} {I L : List sm_Key} {k : sm_Key} {v : α}
    (hr : Reach InRange m I L) (hk : k ∈ L) (hv : sm_map_get m k = some v)
    (out : Option α) :
    (sm_map_remove m k out).1 = true ∧
      (sm_map_remove m k out).2.2 = out.map (fun _ => v) ∧
      (sm_map_remove m k out).2.1.values.length + 1 = m.values.length := by
  obtain ⟨⟨fl, hi⟩, hg⟩ := reach_inv hr
  obtain ⟨_, hgen, _, hp, hps, _⟩ := live_key hi hg hk
  obtain ⟨_, hval⟩ := (get_eq_some_iff m k v).1 hv
  refine ⟨remove_fst m k out hgen, ?_, (removed_of_live out hi hgen ⟨_, hp, hps⟩).values_length⟩
  rw [remove_out m k out hgen]
  cases out with
  | none => rfl
  | some x =>
    dsimp only [Option.map]
    rw [← hval]
    rfl

/-- Witness of `remove_returns_stored`: the remove of the live key `{0, 1}`, whose
value is `5`, from `w2`. -/
theorem remove_returns_stored_witness :
    Reach InRange w2 [{ index := 1, generation := 1 }, { index := 0, generation := 1 }]
      [{ index := 1, generation := 1 }, { index := 0, generation := 1 }] ∧
    sm_map_get w2 { index := 0, generation := 1 } = some 5 ∧
    (sm_map_remove w2 { index := 0, generation := 1 } (some 0)).1 = true ∧
    (sm_map_remove w2 { index := 0, generation := 1 } (some 0)).2.2 = some 5 ∧
    (sm_map_remove w2 { index := 0, generation := 1 } (some 0)).2.1.values.length + 1 =
      w2.values.length :=
  ⟨w2_reach, rfl,
    remove_returns_stored w2_reach (List.mem_cons_of_mem _ (List.mem_cons_self _ _)) rfl
      (some 0)⟩

theorem w4_remove :
    sm_map_remove w2 { index := 1, generation := 1 } none = (true, w4, none) := rfl

theorem w4_reach :
    Reach Any w4 [{ index := 1, generation := 1 }, { index := 0, generation := 1 }]
      [{ index := 0, generation := 1 }] := by
  obtain ⟨a, b, c, d, e, f, h1, h2, hrun⟩ := reach_any w2_reach
  exact ⟨a, b, c, d, e, f, h1, h2, Run.remove hrun (List.mem_cons_self _ _) w4_remove trivial⟩

/-- The map `w4` after `2 ^ 32 - 1` rounds of insert and remove has the shape `Spun 1`:
the generation of the free slot 1 is back at `1`. -/
theorem spin_wrapped :
    ∃ z I L, spin w4 4294967295 = some z ∧
      Run Any w4 [{ index := 1, generation := 1 }, { index := 0, generation := 1 }]
        [{ index := 0, generation := 1 }] z I L ∧
      Spun 1 z ∧ ({ index := 1, generation := 1 } : sm_Key) ∈ I ∧
      ({ index := 0, generation := 1 } : sm_Key) ∈ L := by
  obtain ⟨z, I, L, hs, hrun, hsp, hI, hL⟩ := spin_run
    [{ index := 1, generation := 1 }, { index := 0, generation := 1 }]
    [{ index := 0, generation := 1 }] w4_spun (by norm_num) 4294967295
  exact ⟨z, I, L, hs, hrun, hsp, hI _ (List.mem_cons_self _ _),
    hL _ (List.mem_cons_self _ _) rfl⟩

/-- The remove of the key `{1, g}` from a map of shape `Spun g`, in which slot 1 is
free, succeeds and empties `values`. -/
theorem spun_stale_remove {g : Nat} {z : sm_Map Nat} (h : Spun g z) :
    sm_map_remove z { index := 1, generation := g } none =
        (true, (sm_map_remove z { index := 1, generation := g } none).2.1, none) ∧
      (sm_map_remove z { index := 1, generation := g } none).2.1.values.length = 0 ∧
      (sm_map_remove z { index := 1, generation := g } none).2.1.slots.ptr 0 =
        { index := 0, generation := 1 } ∧
      (sm_map_remove z { index := 1, generation := g } none).2.1.values.ptr 0 = 5 := by
  have hp1 : size_pred 1 = 0 := rfl
  have hgen : (z.slots.ptr ({ index := 1, generation := g } : sm_Key).index).generation =
      ({ index := 1, generation := g } : sm_Key).generation := by
    dsimp only; rw [h.slot1]
  have hpos : posOf z { index := 1, generation := g } = 1 := by
    unfold posOf; dsimp only; rw [h.slot1]
  have hfp := remove_finder_ptr z _ none hgen
  have hvp := remove_values_ptr z _ none hgen
  rw [hpos, h.finder_length, hp1, if_neg (by decide)] at hfp
  rw [hpos, h.values_length, hp1, if_neg (by decide)] at hvp
  have hsp := remove_slots_ptr z _ none hgen 0
  rw [hpos, hfp, h.finder1] at hsp
  dsimp only at hsp
  rw [if_neg (by decide), if_neg (by decide)] at hsp
  refine ⟨?_, ?_, hsp.trans h.slot0, ?_⟩
  · have a := remove_fst z _ none hgen
    have b := remove_out z _ none hgen
    rw [Prod.ext_iff, Prod.ext_iff]
    exact ⟨a, rfl, b⟩
  · rw [remove_values_length z _ none hgen, h.values_length, hp1]
  · rw [hvp]; exact h.value0

/-- Claim C3 fails as stated: after `2 ^ 32 - 1` rounds of insert and remove on the
free slot of `w4`, the key `{1, 1}`, removed long before, is accepted by
`sm_map_remove` again; after that remove `values` is empty although the key `{0, 1}`
is live with value `5`, and the remove of `{0, 1}` wraps the length of `values` round
to `2 ^ 64 - 1`. -/
theorem remove_length_wraps :
    ∃ z I L, spin w4 4294967295 = some z ∧
      Reach Any (sm_map_remove z { index := 1, generation := 1 } none).2.1 I L ∧
      ({ index := 0, generation := 1 } : sm_Key) ∈ L ∧
      sm_map_get (sm_map_remove z { index := 1, generation := 1 } none).2.1
        { index := 0, generation := 1 } = some 5 ∧
      (sm_map_remove z { index := 1, generation := 1 } none).2.1.values.length = 0 ∧
      (sm_map_remove (sm_map_remove z { index := 1, generation := 1 } none).2.1
        { index := 0, generation := 1 } (some 0)).2.1.values.length =
          18446744073709551615 := by
  obtain ⟨z, I, L, hs, hrun, hsp, hI, hL⟩ := spin_wrapped
  obtain ⟨er, hlen, hs0, hv0⟩ := spun_stale_remove hsp
  have hreach := reach_run w4_reach (Run.remove hrun hI er trivial)
  rw [if_pos rfl] at hreach
  refine ⟨z, I, _, hs, hreach, ?_, ?_, hlen, ?_⟩
  · rw [List.mem_filter]
    exact ⟨hL, by decide⟩
  · rw [get_eq_some_iff]
    dsimp only
    rw [hs0]
    exact ⟨rfl, hv0⟩
  · have hgen : ((sm_map_remove z { index := 1, generation := 1 } none).2.1.slots.ptr
        ({ index := 0, generation := 1 } : sm_Key).index).generation =
        ({ index := 0, generation := 1 } : sm_Key).generation := by
      dsimp only; rw [hs0]
    rw [remove_values_length _ _ _ hgen, hlen]
    rfl

/-- Claim C4: when `sm_map_remove` returns true for a key, `sm_map_get` on that key in
the resulting map returns `NULL` and a second `sm_map_remove` of it returns false.
This holds in every map state and for every key, in particular for a live key of a
reachable state. -/
theorem removed_key_absent {m m2 : sm_Map α} {k : sm_Key} {out out2 : Option α}
    (h : sm_map_remove m k out = (true, m2, out2)) :
    sm_map_get m2 k = none ∧ ∀ out3, (sm_map_remove m2 k out3).1 = false := by
  by_cases hgen : (m.slots.ptr k.index).generation = k.generation
  · have hm : m2 = (sm_map_remove m k out).2.1 := by rw [h]
    have hsp := remove_slots_ptr m k out hgen k.index
    rw [if_pos rfl, ← hm] at hsp
    have hne : (m2.slots.ptr k.index).generation ≠ k.generation := by
      rw [hsp]
      unfold u32_succ
      dsimp only
      omega
    refine ⟨(get_eq_none_iff m2 k).2 hne, ?_⟩
    intro out3
    rw [remove_stale m2 k out3 hne]
  · rw [remove_stale m k out hgen] at h
    simp at h

/-- Witness of `removed_key_absent`: the remove of `{0, 1}` from `w2`. -/
theorem removed_key_absent_witness :
    sm_map_remove w2 { index := 0, generation := 1 } none = (true, w3, none) ∧
    sm_map_get w3 { index := 0, generation := 1 } = none ∧
    ∀ out3, (sm_map_remove w3 { index := 0, generation := 1 } out3).1 = false :=
  ⟨w3_remove, removed_key_absent w3_remove⟩

/-- Claim C5, as amended: once the remove of an issued key `k` has succeeded in a state
reachable through states in range, then after every further finite sequence of inserts
and removes through states in range `sm_map_get` on `k` returns `NULL` and
`sm_map_remove` of `k` returns false. -/
theorem removed_key_stays_absent {m m1 m2 : sm_Map α} {I L I2 L2 : List sm_Key}
    {k : sm_Key} {out out1 : Option α}
    (hr : Reach InRange m I L) (hk : k ∈ I)
    (hrem : sm_map_remove m k out = (true, m1, out1)) (h1 : InRange m1)
    (hrun : Run InRange m1 I (L.filter (fun x => x ≠ k)) m2 I2 L2) :
    sm_map_get m2 k = none ∧ ∀ out3, (sm_map_remove m2 k out3).1 = false := by
  obtain ⟨⟨fl, hi⟩, hg⟩ := reach_inv hr
  have hgen : (m.slots.ptr k.index).generation = k.generation := by
    by_contra hc
    rw [remove_stale m k out hc] at hrem
    simp at hrem
  have hm : m1 = (sm_map_remove m k out).2.1 := by rw [hrem]
  have hrm : Removed m m1 k := hm ▸ removed_of_live out hi hgen (hg.issued_live k hk hgen)
  have hks : k.index < m1.slots.length := by
    rw [hrm.slots_length]; exact hg.issued_lt k hk
  have hnw := h1.2 _ hks
  have hg1 := removed_gen hi hrm hgen hnw k.index
  rw [if_pos rfl, hgen] at hg1
  obtain ⟨_, _, hmono, _⟩ := run_inv hrun ⟨_, inv_of_removed hi hrm⟩
    (ginv_of_removed hi hg hrm hgen hnw)
  have hle := hmono k.index hks
  have hne : (m2.slots.ptr k.index).generation ≠ k.generation := by omega
  refine ⟨(get_eq_none_iff m2 k).2 hne, ?_⟩
  intro out3
  rw [remove_stale m2 k out3 hne]

theorem w5_insert : sm_map_insert w3 (some 7) = some ({ index := 0, generation := 2 }, w5) :=
  rfl

theorem w5_range : InRange w5 := by
  refine ⟨by decide, ?_⟩
  intro j hj
  have h2 : j < 2 := hj
  interval_cases j <;> decide

/-- Witness of `removed_key_stays_absent`: the key `{0, 1}` is removed from `w2`, and
the next insert recycles its slot. -/
theorem removed_key_stays_absent_witness :
    Reach InRange w2 [{ index := 1, generation := 1 }, { index := 0, generation := 1 }]
      [{ index := 1, generation := 1 }, { index := 0, generation := 1 }] ∧
    sm_map_remove w2 { index := 0, generation := 1 } none = (true, w3, none) ∧
    InRange w3 ∧
    sm_map_insert w3 (some 7) = some ({ index := 0, generation := 2 }, w5) ∧
    sm_map_get w5 { index := 0, generation := 1 } = none ∧
    ∀ out3, (sm_map_remove w5 { index := 0, generation := 1 } out3).1 = false :=
  ⟨w2_reach, w3_remove, w3_range, w5_insert,
    removed_key_stays_absent w2_reach (List.mem_cons_of_mem _ (List.mem_cons_self _ _))
      w3_remove w3_range (Run.insert Run.start w5_insert w5_range)⟩

/-- Claim C5 fails as stated: the key `{1, 1}` is removed from `w2`; after
`2 ^ 32 - 1` further rounds of insert and remove, which recycle slot 1, the 32-bit
generation of slot 1 is `1` again, `sm_map_get` on `{1, 1}` is not `NULL` and
`sm_map_remove` of `{1, 1}` returns true. -/
theorem removed_key_revalidated :
    ∃ z I L,
      Reach Any w2 [{ index := 1, generation := 1 }, { index := 0, generation := 1 }]
        [{ index := 1, generation := 1 }, { index := 0, generation := 1 }] ∧
      sm_map_remove w2 { index := 1, generation := 1 } none = (true, w4, none) ∧
      spin w4 4294967295 = some z ∧
      Run Any w4 [{ index := 1, generation := 1 }, { index := 0, generation := 1 }]
        [{ index := 0, generation := 1 }] z I L ∧
      sm_map_get z { index := 1, generation := 1 } ≠ none ∧
      (sm_map_remove z { index := 1, generation := 1 } none).1 = true := by
  obtain ⟨z, I, L, hs, hrun, hsp, _, _⟩ := spin_wrapped
  have hgen : (z.slots.ptr ({ index := 1, generation := 1 } : sm_Key).index).generation =
      ({ index := 1, generation := 1 } : sm_Key).generation := by
    dsimp only; rw [hsp.slot1]
  refine ⟨z, I, L, reach_any w2_reach, w4_remove, hs, hrun, ?_, remove_fst z _ none hgen⟩
  intro hc
  exact (get_eq_none_iff z _).1 hc hgen

/-- Claim C6: a remove with a key whose generation differs from the generation of the
slot it names returns false and leaves the whole map and `out_val` unchanged. -/
theorem stale_remove_atomic (m : sm_Map α) (k : sm_Key) (out : Option α)
    (h : (sm_vec_get m.slots k.index).generation ≠ k.generation) :
    sm_map_remove m k out = (false, m, out) :=
  remove_stale m k out h

/-- Witness of `stale_remove_atomic`: the key `{0, 1}` in `w3`, where slot 0 has
generation 2. -/
theorem stale_remove_atomic_witness :
    (sm_vec_get w3.slots 0).generation ≠ 1 ∧
    sm_map_remove w3 { index := 0, generation := 1 } (some 9) = (false, w3, some 9) :=
  ⟨by decide, stale_remove_atomic w3 { index := 0, generation := 1 } (some 9) (by decide)⟩

theorem freelist_walk_chain (m : sm_Map α) :
    ∀ (l : List Nat) (a fuel : Nat), (a :: l).Nodup →
      List.Chain' (fun x y => (m.slots.ptr x).index = y) (a :: l) →
      (a :: l).getLast? = some m.freelist_tail → l.length < fuel →
      freelist_walk m fuel a = some (a :: l) := by
  intro l
  induction l with
  | nil =>
    intro a fuel _ _ hl hf
    cases fuel with
    | zero => exact absurd hf (Nat.not_lt_zero _)
    | succ f =>
      simp only [List.getLast?_singleton, Option.some.injEq] at hl
      rw [freelist_walk, if_neg (not_not.2 hl)]
  | cons b t ih =>
    intro a fuel hnd hc hl hf
    cases fuel with
    | zero => exact absurd hf (Nat.not_lt_zero _)
    | succ f =>
      rw [List.getLast?_cons_cons] at hl
      have hmem : m.freelist_tail ∈ b :: t := List.mem_of_getLast?_eq_some hl
      have hne : a ≠ m.freelist_tail := fun h => (List.nodup_cons.1 hnd).1 (h ▸ hmem)
      rw [List.chain'_cons] at hc
      rw [freelist_walk, if_pos hne, sm_vec_get, hc.1,
        ih b f (List.nodup_cons.1 hnd).2 hc.2 hl (by simpa using hf)]

theorem freelist_walk_mono (m : sm_Map α) :
    ∀ (fuel a : Nat) (l : List Nat), freelist_walk m fuel a = some l →
      freelist_walk m (fuel + 1) a = some l := by
  intro fuel
  induction fuel with
  | zero => intro a l h; simp [freelist_walk] at h
  | succ f ih =>
    intro a l h
    rw [freelist_walk] at h ⊢
    by_cases hc : a ≠ m.freelist_tail
    · rw [if_pos hc] at h ⊢
      cases hw : freelist_walk m f (sm_vec_get m.slots a).index with
      | none => rw [hw] at h; simp at h
      | some l2 =>
        rw [hw] at h
        rw [ih _ _ hw]
        exact h
    · rw [if_neg hc] at h ⊢
      exact h

theorem freelist_walk_le (m : sm_Map α) {fuel fuel2 a : Nat} {l : List Nat}
    (h : freelist_walk m fuel a = some l) (hle : fuel ≤ fuel2) :
    freelist_walk m fuel2 a = some l := by
  induction hle with
  | refl => exact h
  | step _ ih => exact freelist_walk_mono m _ a l ih

/-- In a state satisfying the invariant with freelist `fl`, the walk of `map_dump`
terminates and visits `fl`. -/
theorem map_dump_freelist_eq {m : sm_Map α} {fl : List Nat} (hi : Inv m fl) :
    (∀ fuel, m.slots.length ≤ fuel → map_dump_freelist m fuel = some fl) ∧
      ∀ fuel l, map_dump_freelist m fuel = some l → l = fl := by
  have hmain : ∀ fuel, fl.length ≤ fuel → map_dump_freelist m fuel = some fl := by
    intro fuel hf
    unfold map_dump_freelist
    by_cases hh : m.freelist_head = -1
    · rw [if_neg (not_not.2 hh), hi.head_nil hh]
    · obtain ⟨t, hfl, _, hu, _⟩ := hi.head_cons hh
      rw [if_pos hh, hu]
      have hnd := hi.nodup
      have hc := hi.chain
      have ht := hi.tail (by rw [hfl]; exact List.cons_ne_nil _ _)
      rw [hfl] at hnd hc ht hf ⊢
      cases fuel with
      | zero => simp at hf
      | succ f =>
        exact freelist_walk_chain m t _ _ hnd hc ht (by simpa [Nat.lt_succ_iff] using hf)
  constructor
  · intro fuel hf
    have := hi.count
    exact hmain fuel (by omega)
  · intro fuel l hl
    have h1 := hmain (max fuel fl.length) (le_max_right _ _)
    have h2 : map_dump_freelist m (max fuel fl.length) = some l := by
      unfold map_dump_freelist at hl ⊢
      by_cases hh : m.freelist_head = -1
      · rw [if_neg (not_not.2 hh)] at hl ⊢
        exact hl
      · rw [if_pos hh] at hl ⊢
        exact freelist_walk_le m hl (le_max_left _ _)
    rw [h1] at h2
    exact (Option.some.inj h2).symm

/-- Claim C7, as amended: in every state reachable through states in range, a key
returned by an earlier insert whose generation equals the generation of its slot is
live: its slot is not on the freelist, and the slot's index is a position of `values`
whose `slot_finder` entry is that slot. -/
theorem issued_match_live {m : sm_Map α} {I L : List sm_Key} {k : sm_Key}
    (hr : Reach InRange m I L) (hk : k ∈ I)
    (hgen : (sm_vec_get m.slots k.index).generation = k.generation) :
    k ∈ L ∧ (sm_vec_get m.slots k.index).index < m.values.length ∧
      sm_vec_get m.slot_finder (sm_vec_get m.slots k.index).index = k.index ∧
      ∀ fuel l, map_dump_freelist m fuel = some l → k.index ∉ l := by
  obtain ⟨⟨fl, hi⟩, hg⟩ := reach_inv hr
  have hkL : k ∈ L := (hg.live_iff k).2 ⟨hk, hgen⟩
  obtain ⟨_, _, _, hp, hps, hnf⟩ := live_key hi hg hkL
  refine ⟨hkL, hp, hps, ?_⟩
  intro fuel l hl
  rw [(map_dump_freelist_eq hi).2 fuel l hl]
  exact hnf

/-- Witness of `issued_match_live`: the key `{1, 1}` in `w3`. -/
theorem issued_match_live_witness :
    Reach InRange w3 [{ index := 1, generation := 1 }, { index := 0, generation := 1 }]
      [{ index := 1, generation := 1 }] ∧
    (sm_vec_get w3.slots 1).generation = 1 ∧
    (sm_vec_get w3.slots 1).index < w3.values.length ∧
    sm_vec_get w3.slot_finder (sm_vec_get w3.slots 1).index = 1 ∧
    ∀ fuel l, map_dump_freelist w3 fuel = some l → 1 ∉ l :=
  ⟨w3_reach, rfl,
    (issued_match_live (k := { index := 1, generation := 1 }) w3_reach
      (List.mem_cons_self _ _) rfl).2⟩

/-- Claim C7 fails as stated.  First, for a key not returned by an insert: in `w4`
slot 1 is free with generation 2, the key `{1, 2}` matches it, slot 1 is on the
freelist and its index is not a position of `values`.  Second, for an issued key once
a generation has wrapped: after `2 ^ 32 - 1` rounds on slot 1 the removed key `{1, 1}`
matches the free slot 1. -/
theorem match_not_live :
    (Reach Any w4 [{ index := 1, generation := 1 }, { index := 0, generation := 1 }]
        [{ index := 0, generation := 1 }] ∧
      1 < w4.slots.length ∧ (sm_vec_get w4.slots 1).generation = 2 ∧
      ¬ (sm_vec_get w4.slots 1).index < w4.values.length ∧
      map_dump_freelist w4 2 = some [1]) ∧
    ∃ z I L, spin w4 4294967295 = some z ∧ Reach Any z I L ∧
      ({ index := 1, generation := 1 } : sm_Key) ∈ I ∧
      1 < z.slots.length ∧ (sm_vec_get z.slots 1).generation = 1 ∧
      ¬ (sm_vec_get z.slots 1).index < z.values.length ∧
      map_dump_freelist z 2 = some [1] := by
  refine ⟨⟨w4_reach, by decide, rfl, by decide, rfl⟩, ?_⟩
  obtain ⟨z, I, L, hs, hrun, hsp, hI, _⟩ := spin_wrapped
  refine ⟨z, I, L, hs, reach_run w4_reach hrun, hI, ?_, ?_, ?_, ?_⟩
  · rw [hsp.slots_length]; decide
  · rw [sm_vec_get, hsp.slot1]
  · rw [sm_vec_get, hsp.slot1, hsp.values_length]; decide
  · have hu : int_to_u32 1 = 1 := rfl
    unfold map_dump_freelist
    rw [hsp.head, if_pos (by decide), hu, freelist_walk, hsp.tail, if_neg (by decide)]

/-- Claim C8, as amended: in every state reachable through states in range, the key
an insert returns differs from every key returned by an earlier insert, when the
insert leaves the map with at most `2 ^ 32` slots. -/
theorem insert_key_fresh {m m2 : sm_Map α} {I L : List sm_Key} {val : Option α}
    {k : sm_Key} (hr : Reach InRange m I L)
    (he : sm_map_insert m val = some (k, m2)) (hb : m2.slots.length ≤ 4294967296) :
    k ∉ I := by
  obtain ⟨⟨fl, hi⟩, hg⟩ := reach_inv hr
  exact (inserted_of_inv hi hg he hb).2.1

/-- Witness of `insert_key_fresh`: the insert into `w3` returns `{0, 2}`. -/
theorem insert_key_fresh_witness :
    Reach InRange w3 [{ index := 1, generation := 1 }, { index := 0, generation := 1 }]
      [{ index := 1, generation := 1 }] ∧
    sm_map_insert w3 (some 7) = some ({ index := 0, generation := 2 }, w5) ∧
    w5.slots.length ≤ 4294967296 ∧
    ({ index := 0, generation := 2 } : sm_Key) ∉
      [({ index := 1, generation := 1 } : sm_Key), { index := 0, generation := 1 }] :=
  ⟨w3_reach, w5_insert, by decide, insert_key_fresh w3_reach w5_insert (by decide)⟩

/-- Claim C8 fails as stated: after inserting `0, …, 2 ^ 32 - 1` into a new map, the
next insert returns the key `{0, 1}`, which the first insert returned. -/
theorem insert_repeats_key :
    ∃ m I k m2, fill 4294967296 = some (m, I) ∧ Reach Any m I I ∧
      sm_map_insert m (some 4294967296) = some (k, m2) ∧ k ∈ I := by
  obtain ⟨m, I, hf, hr, hm⟩ := fill_full 4294967296 (by norm_num)
  obtain ⟨c1, c2, c3, _, _, _, e⟩ := insert_fresh_eq m (some 4294967296) hm.head
    hm.caps.1 hm.caps.2.1 hm.caps.2.2
    (by rw [hm.slots_length]; norm_num) (by rw [hm.finder_length]; norm_num)
    (by rw [hm.values_length]; norm_num)
  refine ⟨m, I, _, _, hf, hr, e, ?_⟩
  rw [hm.keys, hm.slots_length]
  exact ⟨0, by norm_num, rfl⟩

/-- Claim C9, as amended: in every state reachable through states in range, `values`
and `slot_finder` have the same length and every position `i` of `values` is the
index of the slot `slot_finder[i]`, which is a slot of the map. -/
theorem density {m : sm_Map α} {I L : List sm_Key} (hr : Reach InRange m I L) :
    m.values.length = m.slot_finder.length ∧
      ∀ i, i < m.values.length →
        sm_vec_get m.slot_finder i < m.slots.length ∧
          (sm_vec_get m.slots (sm_vec_get m.slot_finder i)).index = i := by
  obtain ⟨⟨fl, hi⟩, _⟩ := reach_inv hr
  exact ⟨hi.len_eq.symm, hi.dense⟩

/-- Witness of `density`: the map `w3`. -/
theorem density_witness :
    Reach InRange w3 [{ index := 1, generation := 1 }, { index := 0, generation := 1 }]
      [{ index := 1, generation := 1 }] ∧
    w3.values.length = w3.slot_finder.length ∧
    ∀ i, i < w3.values.length →
      sm_vec_get w3.slot_finder i < w3.slots.length ∧
        (sm_vec_get w3.slots (sm_vec_get w3.slot_finder i)).index = i :=
  ⟨w3_reach, density w3_reach⟩

/-- Claim C9 fails as stated: after inserting `0, …, 2 ^ 32` into a new map, the entry
`slot_finder[2 ^ 32]` is `0`, and the index of slot 0 is `0`, not `2 ^ 32`. -/
theorem density_fails_past_u32 :
    ∃ m I, fill 4294967297 = some (m, I) ∧ Reach Any m I I ∧
      4294967296 < m.values.length ∧
      (sm_vec_get m.slots (sm_vec_get m.slot_finder 4294967296)).index ≠ 4294967296 := by
  obtain ⟨m, I, hf, hr, hm⟩ := fill_full (4294967296 + 1) (by norm_num)
  have h0 : to_u32 0 = 0 := rfl
  have hN : to_u32 4294967296 = 0 := rfl
  refine ⟨m, I, hf, hr, by rw [hm.values_length]; norm_num, ?_⟩
  rw [sm_vec_get, sm_vec_get, hm.finder 4294967296 (by norm_num), hN,
    hm.slots 0 (by norm_num), h0]
  decide

/-- Claim C10, as amended: in every state reachable through states in range,
`freelist_head` is `-1` iff no slot is free, and the walk of `map_dump` from
`freelist_head` to `freelist_tail` terminates and visits exactly the free slots (the
slots that no entry of `slot_finder` names), each exactly once. -/
theorem freelist_sound {m : sm_Map α} {I L : List sm_Key} (hr : Reach InRange m I L) :
    (m.freelist_head = -1 ↔
      ∀ j, j < m.slots.length →
        ∃ i, i < m.slot_finder.length ∧ sm_vec_get m.slot_finder i = j) ∧
    ∃ fl, (∀ fuel, m.slots.length ≤ fuel → map_dump_freelist m fuel = some fl) ∧
      fl.Nodup ∧
      ∀ j, j ∈ fl ↔
        (j < m.slots.length ∧
          ∀ i, i < m.slot_finder.length → sm_vec_get m.slot_finder i ≠ j) := by
  obtain ⟨⟨fl, hi⟩, _⟩ := reach_inv hr
  have hlen := hi.len_eq
  constructor
  · constructor
    · intro hh j hj
      have hnil := hi.head_nil hh
      have hf := (hi.free j).not.1 (by rw [hnil]; exact List.not_mem_nil j)
      simp only [not_and, not_forall, not_not] at hf
      obtain ⟨i, hi1, hi2⟩ := hf hj
      exact ⟨i, by omega, hi2⟩
    · intro hall
      apply hi.head_empty
      cases hfl : fl with
      | nil => rfl
      | cons a t =>
        have ha := (hi.free a).1 (by rw [hfl]; exact List.mem_cons_self _ _)
        obtain ⟨i, hi1, hi2⟩ := hall a ha.1
        exact absurd hi2 (ha.2 i (by omega))
  · refine ⟨fl, (map_dump_freelist_eq hi).1, hi.nodup, ?_⟩
    intro j
    rw [hlen]
    exact hi.free j

/-- Witness of `freelist_sound`: the map `w3`. -/
theorem freelist_sound_witness :
    Reach InRange w3 [{ index := 1, generation := 1 }, { index := 0, generation := 1 }]
      [{ index := 1, generation := 1 }] ∧
    (w3.freelist_head = -1 ↔
      ∀ j, j < w3.slots.length →
        ∃ i, i < w3.slot_finder.length ∧ sm_vec_get w3.slot_finder i = j) ∧
    ∃ fl, (∀ fuel, w3.slots.length ≤ fuel → map_dump_freelist w3 fuel = some fl) ∧
      fl.Nodup ∧
      ∀ j, j ∈ fl ↔
        (j < w3.slots.length ∧
          ∀ i, i < w3.slot_finder.length → sm_vec_get w3.slot_finder i ≠ j) :=
  ⟨w3_reach, freelist_sound w3_reach⟩

/-- Claim C10 fails as stated: after inserting `0, …, 2 ^ 32` into a new map,
`freelist_head` is `-1` although no entry of `slot_finder` names the slot of index
`2 ^ 32`. -/
theorem freelist_misses_slot :
    ∃ m I, fill 4294967297 = some (m, I) ∧ Reach Any m I I ∧
      m.freelist_head = -1 ∧ 4294967296 < m.slots.length ∧
      ∀ i, i < m.slot_finder.length → sm_vec_get m.slot_finder i ≠ 4294967296 := by
  obtain ⟨m, I, hf, hr, hm⟩ := fill_full (4294967296 + 1) (by norm_num)
  refine ⟨m, I, hf, hr, hm.head, by rw [hm.slots_length]; norm_num, ?_⟩
  intro i hi
  rw [hm.finder_length] at hi
  rw [sm_vec_get, hm.finder i hi]
  unfold to_u32
  omega

theorem size_double_zero : size_double 0 = 0 := rfl

theorem grow_capacity_zero (len : Nat) (h : 1 ≤ len) :
    ∀ fuel, grow_capacity fuel len 0 = none := by
  intro fuel
  induction fuel with
  | zero => rfl
  | succ f ih => rw [grow_capacity, if_pos (by omega), size_double_zero, ih]

theorem grow_capacity_least :
    ∀ (j len cap fuel : Nat), 1 ≤ cap → cap < 18446744073709551616 →
      len ≤ 9223372036854775808 → len ≤ cap * 2 ^ j → (∀ i, i < j → cap * 2 ^ i < len) →
      j < fuel → grow_capacity fuel len cap = some (cap * 2 ^ j) := by
  intro j
  induction j with
  | zero =>
    intro len cap fuel _ _ _ hle _ hf
    cases fuel with
    | zero => exact absurd hf (Nat.not_lt_zero _)
    | succ f =>
      rw [pow_zero, Nat.mul_one] at hle ⊢
      rw [grow_capacity, if_neg (by omega)]
  | succ j ih =>
    intro len cap fuel h1 h2 h3 hle hmin hf
    cases fuel with
    | zero => exact absurd hf (Nat.not_lt_zero _)
    | succ f =>
      have hlt : cap < len := by
        have := hmin 0 (Nat.succ_pos _)
        rwa [pow_zero, Nat.mul_one] at this
      have hd : size_double cap = cap * 2 := by unfold size_double; omega
      have e : ∀ i, cap * 2 * 2 ^ i = cap * 2 ^ (i + 1) := by
        intro i
        rw [pow_succ]
        ring
      rw [grow_capacity, if_pos hlt, hd,
        ih len (cap * 2) f (by omega) (by omega) h3 (by rw [e]; exact hle)
          (fun i hi => by rw [e]; exact hmin (i + 1) (by omega)) (by omega), e]

/-- The least number of doublings after which the capacity suffices. -/
theorem doublings_exist (len cap : Nat) (h1 : 1 ≤ cap)
    (h3 : len ≤ 9223372036854775808) :
    ∃ j, j ≤ 63 ∧ len ≤ cap * 2 ^ j ∧ ∀ i, i < j → cap * 2 ^ i < len := by
  have hex : ∃ j, len ≤ cap * 2 ^ j := by
    refine ⟨63, ?_⟩
    have : (1 : Nat) * 2 ^ 63 ≤ cap * 2 ^ 63 := Nat.mul_le_mul_right _ h1
    norm_num at this
    omega
  refine ⟨Nat.find hex, ?_, Nat.find_spec hex, ?_⟩
  · apply Nat.find_min' hex
    have : (1 : Nat) * 2 ^ 63 ≤ cap * 2 ^ 63 := Nat.mul_le_mul_right _ h1
    norm_num at this
    omega
  · intro i hi
    exact Nat.lt_of_not_le (Nat.find_min hex hi)

theorem grow_capacity_pow_diverges :
    ∀ (fuel c : Nat), (c = 0 ∨ ∃ i, i ≤ 63 ∧ c = 2 ^ i) →
      grow_capacity fuel 9223372036854775809 c = none := by
  intro fuel
  induction fuel with
  | zero => intro c _; rfl
  | succ f ih =>
    intro c hc
    rcases hc with rfl | ⟨i, hi, rfl⟩
    · exact grow_capacity_zero _ (by norm_num) _
    · have hle : 2 ^ i ≤ 2 ^ 63 := Nat.pow_le_pow_right (by norm_num) hi
      have hlt : 9223372036854775809 > 2 ^ i := by
        norm_num at hle
        omega
      rw [grow_capacity, if_pos hlt]
      apply ih
      by_cases h63 : i = 63
      · left
        subst h63
        rfl
      · right
        refine ⟨i + 1, by omega, ?_⟩
        have hle2 : 2 ^ (i + 1) ≤ 2 ^ 63 := Nat.pow_le_pow_right (by norm_num) (by omega)
        rw [pow_succ] at hle2 ⊢
        norm_num at hle2
        unfold size_double
        omega

/-- Claim C20, as amended: for a buffer with capacity at least 1 and length at most
`2 ^ 63`, the doubling loop of `sm_vec_push` terminates, after the least number `j` of
doublings (at most 63) for which `length ≤ capacity * 2 ^ j`, leaving the capacity
`capacity * 2 ^ j`; for capacity 0 and length at least 1 it never terminates. -/
theorem growth_loop_terminates :
    (∀ len cap, 1 ≤ cap → cap < 18446744073709551616 → len ≤ 9223372036854775808 →
      ∃ j, j ≤ 63 ∧ len ≤ cap * 2 ^ j ∧ (∀ i, i < j → cap * 2 ^ i < len) ∧
        ∀ fuel, j < fuel → grow_capacity fuel len cap = some (cap * 2 ^ j)) ∧
    (∀ len, 1 ≤ len → ∀ fuel, grow_capacity fuel len 0 = none) := by
  refine ⟨?_, grow_capacity_zero⟩
  intro len cap h1 h2 h3
  obtain ⟨j, hj, hle, hmin⟩ := doublings_exist len cap h1 h3
  exact ⟨j, hj, hle, hmin, fun fuel hf =>
    grow_capacity_least j len cap fuel h1 h2 h3 hle hmin hf⟩

/-- Witness of `growth_loop_terminates`: length 5 and capacity 4 need one doubling. -/
theorem growth_loop_terminates_witness :
    (1 ≤ 4 ∧ 4 < 18446744073709551616 ∧ 5 ≤ 9223372036854775808) ∧
    (∃ j, j ≤ 63 ∧ 5 ≤ 4 * 2 ^ j ∧ (∀ i, i < j → 4 * 2 ^ i < 5) ∧
      ∀ fuel, j < fuel → grow_capacity fuel 5 4 = some (4 * 2 ^ j)) ∧
    ∀ fuel, grow_capacity fuel 1 0 = none :=
  ⟨by decide, growth_loop_terminates.1 5 4 (by decide) (by decide) (by decide),
    growth_loop_terminates.2 1 (le_refl 1)⟩

/-- Claim C20 fails as stated: with capacity 1 and length `2 ^ 63 + 1` the capacity
doubles up to `2 ^ 63`, then wraps round to 0, and the loop never terminates. -/
theorem growth_loop_diverges :
    (1 : Nat) ≤ 1 ∧ ∀ fuel, grow_capacity fuel 9223372036854775809 1 = none :=
  ⟨le_refl 1, fun fuel => grow_capacity_pow_diverges fuel 1 (Or.inr ⟨0, by decide, rfl⟩)⟩

/-- Claim C13 fails on the code: `sm_vec_push` tests `length > capacity`, so the push
into a buffer of capacity 1 that already holds one element does not grow the buffer; it
writes the element at index 1 and leaves `length = 2 > capacity = 1`. -/
theorem push_exceeds_capacity :
    ∃ v1 v2, sm_vec_push (sm_vec_new 4 1 (fun _ => (0 : Nat))) (some 7) = some (v1, 0) ∧
      v1.length = 1 ∧ v1.capacity = 1 ∧
      sm_vec_push v1 (some 8) = some (v2, 1) ∧
      v2.capacity = 1 ∧ v2.length = 2 ∧ sm_vec_get v2 1 = 8 ∧ ¬ v2.length ≤ v2.capacity :=
  ⟨_, _, rfl, rfl, rfl, rfl, rfl, rfl, rfl, by decide⟩

/-- Claim C14, as amended: for a buffer with capacity at least 1 and length at most
`2 ^ 63`, a push of a non-null value returns, pointing at the element of index the old
length; afterwards the length is the old length plus 1, that element equals the value
pushed and every element below the old length is unchanged, whether or not the push
grew the buffer. -/
theorem push_appends {β : Type} (v : sm_Vec β) (x : β) (h1 : 1 ≤ v.capacity)
    (h2 : v.capacity < 18446744073709551616) (h3 : v.length ≤ 9223372036854775808) :
    ∃ v2, sm_vec_push v (some x) = some (v2, v.length) ∧
      v2.length = v.length + 1 ∧ sm_vec_get v2 v.length = x ∧
      ∀ i, i < v.length → sm_vec_get v2 i = sm_vec_get v i := by
  have hlen : size_succ v.length = v.length + 1 := by unfold size_succ; omega
  have hgrow : ∃ c, (if v.length > v.capacity then grow_capacity 65 v.length v.capacity
      else some v.capacity) = some c := by
    by_cases hc : v.length > v.capacity
    · obtain ⟨j, hj, hle, hmin⟩ := doublings_exist v.length v.capacity h1 h3
      exact ⟨_, by rw [if_pos hc,
        grow_capacity_least j v.length v.capacity 65 h1 h2 h3 hle hmin (by omega)]⟩
    · exact ⟨_, if_neg hc⟩
  obtain ⟨c, hc⟩ := hgrow
  refine ⟨{ ptr := upd v.ptr v.length x, length := size_succ v.length, capacity := c,
            elem_size := v.elem_size }, ?_, hlen, upd_same _ _ _, ?_⟩
  · simp only [sm_vec_push, hc]
  · intro i hi
    exact upd_other _ _ _ _ (by omega)

/-- Witness of `push_appends`: the push into the full buffer `buf_full`. -/
theorem push_appends_witness :
    (1 ≤ buf_full.capacity ∧ buf_full.capacity < 18446744073709551616 ∧
      buf_full.length ≤ 9223372036854775808) ∧
    ∃ v2, sm_vec_push buf_full (some 8) = some (v2, buf_full.length) ∧
      v2.length = buf_full.length + 1 ∧ sm_vec_get v2 buf_full.length = 8 ∧
      ∀ i, i < buf_full.length → sm_vec_get v2 i = sm_vec_get buf_full i :=
  ⟨by decide, push_appends buf_full 8 (by decide) (by decide) (by decide)⟩

/-- Claim C14 fails as stated: a push into a buffer of length `2 ^ 64 - 1` wraps the
length round to 0, and a push into a buffer of capacity 1 and length `2 ^ 63 + 1` never
returns. -/
theorem push_wraps_or_diverges :
    (∃ v2, sm_vec_push buf_max (some 7) = some (v2, 18446744073709551615) ∧
      v2.length = 0) ∧
    sm_vec_push buf_huge (some 7) = none :=
  ⟨⟨_, rfl, rfl⟩, rfl⟩

/-- Claim C15: for an index `i` below the length, `sm_vec_swap_remove` decreases the
length by exactly 1, writes the old element at `i` to `out_val` when one is given,
leaves at `i` the old last element when `i` was not the last index, and leaves every
other element below the new length unchanged. -/
theorem swap_remove_contract {β : Type} (v : sm_Vec β) (i : Nat) (out : Option β)
    (h : i < v.length) :
    (sm_vec_swap_remove v i out).1.length + 1 = v.length ∧
      (sm_vec_swap_remove v i out).2 = out.map (fun _ => sm_vec_get v i) ∧
      (i ≠ v.length - 1 →
        sm_vec_get (sm_vec_swap_remove v i out).1 i = sm_vec_get v (v.length - 1)) ∧
      ∀ j, j ≠ i → j < v.length - 1 →
        sm_vec_get (sm_vec_swap_remove v i out).1 j = sm_vec_get v j := by
  have hp : size_pred v.length = v.length - 1 := size_pred_of_pos (by omega)
  unfold sm_vec_swap_remove sm_vec_get
  dsimp only
  rw [hp]
  refine ⟨by omega, ?_, ?_, ?_⟩
  · cases out <;> rfl
  · intro hi
    rw [if_pos (by omega)]
    exact upd_same _ _ _
  · intro j hj _
    by_cases hc : i < v.length - 1
    · rw [if_pos hc]
      exact upd_other _ _ _ _ hj
    · rw [if_neg hc]

/-- Witness of `swap_remove_contract`: the removal of index 0 of `buf_three`. -/
theorem swap_remove_contract_witness :
    0 < buf_three.length ∧
    (sm_vec_swap_remove buf_three 0 (some 9)).1.length + 1 = buf_three.length ∧
    (sm_vec_swap_remove buf_three 0 (some 9)).2 = some 0 ∧
    sm_vec_get (sm_vec_swap_remove buf_three 0 (some 9)).1 0 = 2 ∧
    sm_vec_get (sm_vec_swap_remove buf_three 0 (some 9)).1 1 = 1 :=
  ⟨by decide, (swap_remove_contract buf_three 0 (some 9) (by decide)).1,
    (swap_remove_contract buf_three 0 (some 9) (by decide)).2.1,
    (swap_remove_contract buf_three 0 (some 9) (by decide)).2.2.1 (by decide),
    (swap_remove_contract buf_three 0 (some 9) (by decide)).2.2.2 1 (by decide) (by decide)⟩

theorem push_eq_some {β : Type} {v v2 : sm_Vec β} {val : Option β} {p : Nat}
    (h : sm_vec_push v val = some (v2, p)) :
    p = v.length ∧ v2.ptr = pushed v val ∧ v2.length = size_succ v.length ∧
      v2.elem_size = v.elem_size := by
  unfold sm_vec_push at h
  dsimp only at h
  split at h
  · exact absurd h (by simp)
  · simp only [Option.some.injEq, Prod.mk.injEq] at h
    obtain ⟨h1, h2⟩ := h
    subst h1 h2
    exact ⟨rfl, rfl, rfl, rfl⟩

/-- What an insert that returns does when the freelist is empty, in any map state. -/
theorem insert_some_fresh {m m2 : sm_Map α} {val : Option α} {k : sm_Key}
    (hh : m.freelist_head = -1) (he : sm_map_insert m val = some (k, m2)) :
    k = { index := to_u32 m.slots.length, generation := 1 } ∧
      m2.slots.ptr = upd m.slots.ptr m.slots.length
        { index := to_u32 m.values.length, generation := 1 } ∧
      m2.slots.length = size_succ m.slots.length ∧
      m2.values.ptr = pushed m.values val ∧
      m2.values.length = size_succ m.values.length ∧
      m2.slot_finder.ptr = upd m.slot_finder.ptr m.slot_finder.length (to_u32 m.slots.length) ∧
      m2.slot_finder.length = size_succ m.slot_finder.length ∧
      m2.freelist_head = -1 ∧ m2.freelist_tail = m.freelist_tail := by
  rw [sm_map_insert, if_neg (not_not.2 hh)] at he
  dsimp only at he
  cases h1 : sm_vec_push m.slots none with
  | none => rw [h1] at he; exact absurd he (by simp)
  | some r1 =>
    obtain ⟨s1, p1⟩ := r1
    rw [h1] at he
    dsimp only at he
    cases h2 : sm_vec_push m.values val with
    | none => rw [h2] at he; exact absurd he (by simp)
    | some r2 =>
      obtain ⟨s2, p2⟩ := r2
      rw [h2] at he
      dsimp only at he
      cases h3 : sm_vec_push m.slot_finder (some (to_u32 m.slots.length)) with
      | none => rw [h3] at he; exact absurd he (by simp)
      | some r3 =>
        obtain ⟨s3, p3⟩ := r3
        rw [h3] at he
        simp only [Option.some.injEq, Prod.mk.injEq] at he
        obtain ⟨hk, hm⟩ := he
        obtain ⟨a1, a2, a3, _⟩ := push_eq_some h1
        obtain ⟨_, b2, b3, _⟩ := push_eq_some h2
        obtain ⟨_, c2, c3, _⟩ := push_eq_some h3
        subst hk hm
        dsimp only
        rw [a1, a2]
        exact ⟨rfl, rfl, a3, b2, b3, c2, c3, hh, rfl⟩

/-- What an insert that returns does when the freelist is not empty, in any map
state. -/
theorem insert_some_reuse {m m2 : sm_Map α} {val : Option α} {k : sm_Key}
    (hh : m.freelist_head ≠ -1) (he : sm_map_insert m val = some (k, m2)) :
    k = { index := int_to_u32 m.freelist_head,
          generation := (m.slots.ptr (int_to_size m.freelist_head)).generation } ∧
      m2.slots.ptr = upd m.slots.ptr (int_to_size m.freelist_head)
        { index := to_u32 m.values.length,
          generation := (m.slots.ptr (int_to_size m.freelist_head)).generation } ∧
      m2.slots.length = m.slots.length ∧
      m2.values.ptr = pushed m.values val ∧
      m2.values.length = size_succ m.values.length ∧
      m2.slot_finder.ptr =
        upd m.slot_finder.ptr m.slot_finder.length (int_to_u32 m.freelist_head) ∧
      m2.slot_finder.length = size_succ m.slot_finder.length ∧
      m2.freelist_head =
        (if (m.freelist_tail : Int) ≠ m.freelist_head then
          ((m.slots.ptr (int_to_size m.freelist_head)).index : Int)
        else -1) ∧
      m2.freelist_tail = m.freelist_tail := by
  rw [sm_map_insert, if_pos hh] at he
  dsimp only at he
  cases h2 : sm_vec_push m.values val with
  | none => rw [h2] at he; exact absurd he (by simp)
  | some r2 =>
    obtain ⟨s2, p2⟩ := r2
    rw [h2] at he
    dsimp only at he
    cases h3 : sm_vec_push m.slot_finder (some (int_to_u32 m.freelist_head)) with
    | none => rw [h3] at he; exact absurd he (by simp)
    | some r3 =>
      obtain ⟨s3, p3⟩ := r3
      rw [h3] at he
      simp only [Option.some.injEq, Prod.mk.injEq] at he
      obtain ⟨hk, hm⟩ := he
      obtain ⟨_, b2, b3, _⟩ := push_eq_some h2
      obtain ⟨_, c2, c3, _⟩ := push_eq_some h3
      subst hk hm
      exact ⟨rfl, rfl, rfl, b2, b3, c2, c3, rfl, rfl⟩

/-- An insert changes the generation of no slot the map already has. -/
theorem insert_generation_same {m m2 : sm_Map α} {val : Option α} {k : sm_Key}
    (he : sm_map_insert m val = some (k, m2)) (x : Nat) (hx : x < m.slots.length) :
    (m2.slots.ptr x).generation = (m.slots.ptr x).generation := by
  by_cases hh : m.freelist_head = -1
  · obtain ⟨_, h2, _⟩ := insert_some_fresh hh he
    rw [h2, upd_other _ _ _ _ (by omega)]
  · obtain ⟨_, h2, _⟩ := insert_some_reuse hh he
    rw [h2]
    by_cases hc : x = int_to_size m.freelist_head
    · rw [hc, upd_same]
    · rw [upd_other _ _ _ _ hc]

/-- Claim C11, as amended: in every state reachable through states in range, the
remove of a live key whose generation is below `2 ^ 32 - 1` succeeds, makes the
generation of the key's slot greater by exactly 1 and leaves the generation of every
other slot unchanged; an insert returns and changes the generation of no slot the map
already has, and a remove that fails changes nothing. -/
theorem generation_monotone {m : sm_Map α} {I L : List sm_Key}
    (hr : Reach InRange m I L) :
    (∀ k, k ∈ L → k.generation + 1 < 4294967296 →
      ∀ out, (sm_map_remove m k out).1 = true ∧
        (sm_vec_get (sm_map_remove m k out).2.1.slots k.index).generation =
          (sm_vec_get m.slots k.index).generation + 1 ∧
        ∀ x, x ≠ k.index →
          (sm_vec_get (sm_map_remove m k out).2.1.slots x).generation =
            (sm_vec_get m.slots x).generation) ∧
    (∀ val, ∃ k2 m2, sm_map_insert m val = some (k2, m2) ∧
      ∀ x, x < m.slots.length →
        (sm_vec_get m2.slots x).generation = (sm_vec_get m.slots x).generation) ∧
    (∀ k2 out, (sm_map_remove m k2 out).1 = false → (sm_map_remove m k2 out).2.1 = m) := by
  obtain ⟨⟨fl, hi⟩, hg⟩ := reach_inv hr
  refine ⟨?_, ?_, ?_⟩
  · intro k hk hw out
    obtain ⟨_, hgen, _, hp, hps, _⟩ := live_key hi hg hk
    have hrm := removed_of_live out hi hgen ⟨_, hp, hps⟩
    have hnw : ((sm_map_remove m k out).2.1.slots.ptr k.index).generation ≠ 0 := by
      rw [hrm.slot_key]
      dsimp only
      rw [u32_succ_of_lt hw]
      exact Nat.succ_ne_zero _
    have hgx := removed_gen hi hrm hgen hnw
    refine ⟨remove_fst m k out hgen, ?_, ?_⟩
    · have := hgx k.index
      rwa [if_pos rfl] at this
    · intro x hx
      have := hgx x
      rwa [if_neg hx] at this
  · intro val
    obtain ⟨k2, m2, he, _, _⟩ := insert_returns hi val
    exact ⟨k2, m2, he, fun x hx => insert_generation_same he x hx⟩
  · intro k2 out hfalse
    by_cases hc : (m.slots.ptr k2.index).generation = k2.generation
    · rw [remove_fst m k2 out hc] at hfalse
      exact absurd hfalse (by decide)
    · rw [remove_stale m k2 out hc]

/-- Witness of `generation_monotone`: the live key `{0, 1}` of `w2`. -/
theorem generation_monotone_witness :
    Reach InRange w2 [{ index := 1, generation := 1 }, { index := 0, generation := 1 }]
      [{ index := 1, generation := 1 }, { index := 0, generation := 1 }] ∧
    (sm_vec_get (sm_map_remove w2 { index := 0, generation := 1 } none).2.1.slots
        0).generation = (sm_vec_get w2.slots 0).generation + 1 ∧
    (sm_vec_get (sm_map_remove w2 { index := 0, generation := 1 } none).2.1.slots
        1).generation = (sm_vec_get w2.slots 1).generation :=
  ⟨w2_reach,
    ((generation_monotone w2_reach).1 { index := 0, generation := 1 }
      (List.mem_cons_of_mem _ (List.mem_cons_self _ _)) (by decide) none).2.1,
    ((generation_monotone w2_reach).1 { index := 0, generation := 1 }
      (List.mem_cons_of_mem _ (List.mem_cons_self _ _)) (by decide) none).2.2 1
      (by decide)⟩

/-- After `2 ^ 32 - 3` rounds of insert and remove on the free slot of `w4`, the
generation of that slot is `2 ^ 32 - 1`; the next insert returns the live key
`{1, 2 ^ 32 - 1}`, and the remove of that key leaves the slot free with generation 0. -/
theorem spin_top :
    ∃ z m1 I L, spin w4 4294967293 = some z ∧
      sm_map_insert z (some 7) = some ({ index := 1, generation := 4294967295 }, m1) ∧
      Reach Any m1 I L ∧ ({ index := 1, generation := 4294967295 } : sm_Key) ∈ L ∧
      Mid 4294967295 m1 ∧
      Spun 0 (sm_map_remove m1 { index := 1, generation := 4294967295 } none).2.1 := by
  obtain ⟨z, I, L, hs, hrun, hsp, _, _⟩ := spin_run
    [{ index := 1, generation := 1 }, { index := 0, generation := 1 }]
    [{ index := 0, generation := 1 }] w4_spun (by norm_num) 4294967293
  have hsp2 : Spun 4294967295 z := hsp
  obtain ⟨m1, e, hmid⟩ := spun_insert hsp2
  obtain ⟨_, hsp3⟩ := mid_remove hmid
  exact ⟨z, m1, _, _, hs, e, reach_run w4_reach (Run.insert hrun e trivial),
    List.mem_cons_self _ _, hmid, hsp3⟩

/-- Claim C11 fails as stated: the live key `{1, 2 ^ 32 - 1}` is removed successfully
and the generation of its slot becomes 0, which is not greater than before. -/
theorem generation_wraps :
    ∃ z m1 I L, spin w4 4294967293 = some z ∧
      sm_map_insert z (some 7) = some ({ index := 1, generation := 4294967295 }, m1) ∧
      Reach Any m1 I L ∧ ({ index := 1, generation := 4294967295 } : sm_Key) ∈ L ∧
      (sm_vec_get m1.slots 1).generation = 4294967295 ∧
      (sm_map_remove m1 { index := 1, generation := 4294967295 } none).1 = true ∧
      (sm_vec_get (sm_map_remove m1 { index := 1, generation := 4294967295 } none).2.1.slots
        1).generation = 0 := by
  obtain ⟨z, m1, I, L, hs, e, hr, hk, hmid, hsp⟩ := spin_top
  refine ⟨z, m1, I, L, hs, e, hr, hk, ?_, ?_, ?_⟩
  · rw [sm_vec_get, hmid.slot1]
  · exact remove_fst m1 _ none (by dsimp only; rw [hmid.slot1])
  · rw [sm_vec_get, hsp.slot1]

theorem Inv.head_eq {m : sm_Map α} {fl : List Nat} (hi : Inv m fl) :
    m.freelist_head = headOf fl := by
  cases fl with
  | nil => exact hi.head_empty rfl
  | cons a t => exact hi.head_first a t rfl

/-- Claim C17, as amended: in every state reachable through states in range, after
the remove of a live key `k` whose generation is below `2 ^ 32 - 1` the next insert
returns the key `{k.index, k.generation + 1}`, leaves the number of slots as it was
and restores `freelist_head` to the value it had before the remove. -/
theorem recycle_last_freed {m : sm_Map α} {I L : List sm_Key} {k : sm_Key}
    (hr : Reach InRange m I L) (hk : k ∈ L) (hw : k.generation + 1 < 4294967296)
    (out val : Option α) :
    (sm_map_remove m k out).1 = true ∧
      ∃ m2, sm_map_insert (sm_map_remove m k out).2.1 val =
          some ({ index := k.index, generation := k.generation + 1 }, m2) ∧
        m2.slots.length = m.slots.length ∧ m2.freelist_head = m.freelist_head := by
  obtain ⟨⟨fl, hi⟩, hg⟩ := reach_inv hr
  obtain ⟨_, hgen, _, hp, hps, _⟩ := live_key hi hg hk
  have hrm := removed_of_live out hi hgen ⟨_, hp, hps⟩
  refine ⟨remove_fst m k out hgen, ?_⟩
  generalize (sm_map_remove m k out).2.1 = m1 at hrm
  have hkey : (m1.slots.ptr k.index).generation = k.generation + 1 := by
    rw [hrm.slot_key]
    exact u32_succ_of_lt hw
  have hnw : (m1.slots.ptr k.index).generation ≠ 0 := by rw [hkey]; exact Nat.succ_ne_zero _
  have hi1 := inv_of_removed hi hrm
  have hg1 := ginv_of_removed hi hg hrm hgen hnw
  obtain ⟨k2, m2, he, _, _⟩ := insert_returns hi1 val
  have hh : m1.freelist_head ≠ -1 := by rw [hrm.head]; omega
  obtain ⟨h, t, hfl, _, hk2, hl, hhead, _⟩ := inv_insert_reuse hi1 hg1 hh he
  simp only [List.cons.injEq] at hfl
  obtain ⟨rfl, rfl⟩ := hfl
  refine ⟨m2, ?_, by rw [hl, hrm.slots_length], by rw [hhead, hi.head_eq]⟩
  rw [he, hk2, hkey]

/-- Witness of `recycle_last_freed`: the remove of `{0, 1}` from `w2` and the next
insert. -/
theorem recycle_last_freed_witness :
    Reach InRange w2 [{ index := 1, generation := 1 }, { index := 0, generation := 1 }]
      [{ index := 1, generation := 1 }, { index := 0, generation := 1 }] ∧
    (sm_map_remove w2 { index := 0, generation := 1 } none).1 = true ∧
    ∃ m2, sm_map_insert (sm_map_remove w2 { index := 0, generation := 1 } none).2.1
          (some 7) = some ({ index := 0, generation := 1 + 1 }, m2) ∧
      m2.slots.length = w2.slots.length ∧ m2.freelist_head = w2.freelist_head :=
  ⟨w2_reach,
    recycle_last_freed (k := { index := 0, generation := 1 }) w2_reach
      (List.mem_cons_of_mem _ (List.mem_cons_self _ _)) (by decide) none (some 7)⟩

/-- Claim C17 fails as stated: after the remove of the live key `{1, 2 ^ 32 - 1}` the
next insert returns the key `{1, 0}`, whose generation is not `2 ^ 32`. -/
theorem recycled_generation_wraps :
    ∃ z m1 I L m3, spin w4 4294967293 = some z ∧
      sm_map_insert z (some 7) = some ({ index := 1, generation := 4294967295 }, m1) ∧
      Reach Any m1 I L ∧ ({ index := 1, generation := 4294967295 } : sm_Key) ∈ L ∧
      (sm_map_remove m1 { index := 1, generation := 4294967295 } none).1 = true ∧
      sm_map_insert (sm_map_remove m1 { index := 1, generation := 4294967295 } none).2.1
        (some 7) = some ({ index := 1, generation := 0 }, m3) := by
  obtain ⟨z, m1, I, L, hs, e, hr, hk, hmid, hsp⟩ := spin_top
  obtain ⟨m3, e3, _⟩ := spun_insert hsp
  exact ⟨z, m1, I, L, m3, hs, e, hr, hk,
    remove_fst m1 _ none (by dsimp only; rw [hmid.slot1]), e3⟩

/-- Claim C18, as amended: in every state reachable through states in range, an insert
returns and adds a slot, exactly one, if and only if `freelist_head` is `-1` before the call, and
the key it then returns is `{old number of slots, 1}` when that number is below
`2 ^ 32`; the number of slots is the length of `values` plus the number of free
slots. -/
theorem slot_created_when_none_free {m : sm_Map α} {I L : List sm_Key}
    (hr : Reach InRange m I L) :
    (∀ val, ∃ k m2, sm_map_insert m val = some (k, m2) ∧
      (m2.slots.length = m.slots.length + 1 ↔ m.freelist_head = -1) ∧
      (m.freelist_head ≠ -1 → m2.slots.length = m.slots.length) ∧
      (m.freelist_head = -1 → m.slots.length < 4294967296 →
        k = { index := m.slots.length, generation := 1 })) ∧
    ∃ fl : List Nat, fl.Nodup ∧
      (∀ j, j ∈ fl ↔
        (j < m.slots.length ∧
          ∀ i, i < m.slot_finder.length → sm_vec_get m.slot_finder i ≠ j)) ∧
      m.slots.length = m.values.length + fl.length := by
  obtain ⟨⟨fl, hi⟩, _⟩ := reach_inv hr
  have hsl := hi.slots_le
  constructor
  · intro val
    obtain ⟨k, m2, he, _, _⟩ := insert_returns hi val
    refine ⟨k, m2, he, ?_⟩
    by_cases hh : m.freelist_head = -1
    · obtain ⟨hk, _, hl, _⟩ := insert_some_fresh hh he
      have hs : size_succ m.slots.length = m.slots.length + 1 := by
        unfold size_succ; omega
      rw [hs] at hl
      refine ⟨⟨fun _ => hh, fun _ => hl⟩, fun h => absurd hh h, ?_⟩
      intro _ hlt
      rw [hk, to_u32_of_lt hlt]
    · obtain ⟨_, _, hl, _⟩ := insert_some_reuse hh he
      refine ⟨⟨fun h => ?_, fun h => absurd h hh⟩, fun _ => hl, fun h => absurd h hh⟩
      omega
  · refine ⟨fl, hi.nodup, ?_, hi.count⟩
    intro j
    rw [hi.len_eq]
    exact hi.free j

/-- Witness of `slot_created_when_none_free`: the map `w3`, whose slot 0 is free. -/
theorem slot_created_when_none_free_witness :
    Reach InRange w3 [{ index := 1, generation := 1 }, { index := 0, generation := 1 }]
      [{ index := 1, generation := 1 }] ∧
    (∀ val, ∃ k m2, sm_map_insert w3 val = some (k, m2) ∧
      (m2.slots.length = w3.slots.length + 1 ↔ w3.freelist_head = -1) ∧
      (w3.freelist_head ≠ -1 → m2.slots.length = w3.slots.length) ∧
      (w3.freelist_head = -1 → w3.slots.length < 4294967296 →
        k = { index := w3.slots.length, generation := 1 })) ∧
    ∃ fl : List Nat, fl.Nodup ∧
      (∀ j, j ∈ fl ↔
        (j < w3.slots.length ∧
          ∀ i, i < w3.slot_finder.length → sm_vec_get w3.slot_finder i ≠ j)) ∧
      w3.slots.length = w3.values.length + fl.length :=
  ⟨w3_reach, slot_created_when_none_free w3_reach⟩

/-- Claim C18 fails as stated: after inserting `0, …, 2 ^ 32 - 1` into a new map the
freelist is empty and the map has `2 ^ 32` slots; the next insert adds a slot but
returns the key `{0, 1}`, whose index is not the old number of slots. -/
theorem created_slot_index_truncated :
    ∃ m I k m2, fill 4294967296 = some (m, I) ∧ Reach Any m I I ∧
      m.freelist_head = -1 ∧ m.slots.length = 4294967296 ∧
      sm_map_insert m (some 4294967296) = some (k, m2) ∧
      m2.slots.length = m.slots.length + 1 ∧ k = { index := 0, generation := 1 } := by
  obtain ⟨m, I, hf, hr, hm⟩ := fill_full 4294967296 (by norm_num)
  obtain ⟨c1, c2, c3, _, _, _, e⟩ := insert_fresh_eq m (some 4294967296) hm.head
    hm.caps.1 hm.caps.2.1 hm.caps.2.2
    (by rw [hm.slots_length]; norm_num) (by rw [hm.finder_length]; norm_num)
    (by rw [hm.values_length]; norm_num)
  refine ⟨m, I, _, _, hf, hr, hm.head, hm.slots_length, e, rfl, ?_⟩
  rw [hm.slots_length]
  rfl

theorem insert_range_succ (m : sm_Map Int) (n : Nat) :
    insert_range m (n + 1) =
      match insert_range m n with
      | none => none
      | some (m1, keys) =>
        match sm_map_insert m1 (some (n : Int)) with
        | none => none
        | some (k, m2) => some (m2, keys ++ [k]) := rfl

theorem range_keys_succ (n : Nat) :
    range_keys (n + 1) = range_keys n ++ [{ index := n, generation := 1 }] := by
  unfold range_keys
  rw [List.range_succ, List.map_append]
  rfl

theorem ranged_in_range {n : Nat} {m : sm_Map Int} (h : Ranged n m)
    (hn : n ≤ 4294967296) : InRange m := by
  refine ⟨by rw [h.slots_length]; exact hn, ?_⟩
  intro j hj
  rw [h.slots_length] at hj
  rw [h.slots j hj]
  exact Nat.one_ne_zero

/-- The loop of `main`, run for `n ≤ 2 ^ 32` rounds on a new map of any content. -/
theorem insert_range_ranged (value_size capacity : Nat) (ms : Nat → sm_Slot)
    (mf : Nat → Nat) (mv : Nat → Int) (tail : Nat) (h1 : 1 ≤ capacity)
    (h2 : capacity < 18446744073709551616) (n : Nat) (hn : n ≤ 4294967296) :
    ∃ m I, insert_range (sm_map_new value_size capacity ms mf mv tail) n =
        some (m, range_keys n) ∧
      Reach InRange m I I ∧ (∀ k, k ∈ I ↔ k ∈ range_keys n) ∧ Ranged n m := by
  induction n with
  | zero =>
    refine ⟨_, [], rfl, ⟨value_size, capacity, ms, mf, mv, tail, h1, h2, Run.start⟩,
      fun k => by simp [range_keys], ?_⟩
    refine ⟨rfl, rfl, rfl, rfl, ⟨⟨h1, h2⟩, ⟨h1, h2⟩, ⟨h1, h2⟩⟩, ?_, ?_, ?_⟩
    · intro j hj; exact absurd hj (Nat.not_lt_zero _)
    · intro j hj; exact absurd hj (Nat.not_lt_zero _)
    · intro j hj; exact absurd hj (Nat.not_lt_zero _)
  | succ n ih =>
    obtain ⟨m, I, hf, hr, hI, hm⟩ := ih (by omega)
    obtain ⟨c1, c2, c3, hc1, hc2, hc3, e⟩ := insert_fresh_eq m (some (n : Int)) hm.head
      hm.caps.1 hm.caps.2.1 hm.caps.2.2
      (by rw [hm.slots_length]; omega) (by rw [hm.finder_length]; omega)
      (by rw [hm.values_length]; omega)
    rw [hm.slots_length, hm.values_length, hm.finder_length,
      to_u32_of_lt (show n < 4294967296 by omega)] at e
    have hex : ∃ m2, sm_map_insert m (some (n : Int)) =
        some ({ index := n, generation := 1 }, m2) ∧ Ranged (n + 1) m2 := by
      refine ⟨_, e, rfl, rfl, rfl, hm.head, ⟨hc1, hc3, hc2⟩, ?_, ?_, ?_⟩
      · intro j hj
        dsimp only
        by_cases h : j = n
        · rw [h, upd_same]
        · rw [upd_other _ _ _ _ h]
          exact hm.slots j (by omega)
      · intro j hj
        dsimp only
        by_cases h : j = n
        · rw [h, upd_same]
        · rw [upd_other _ _ _ _ h]
          exact hm.finder j (by omega)
      · intro j hj
        dsimp only [pushed]
        rw [hm.values_length]
        by_cases h : j = n
        · rw [h, upd_same]
        · rw [upd_other _ _ _ _ h]
          exact hm.values j (by omega)
    obtain ⟨m2, e2, hfull⟩ := hex
    obtain ⟨vs, cap, a, b, c, tl, g1, g2, hrun⟩ := hr
    refine ⟨_, _, ?_, ⟨vs, cap, a, b, c, tl, g1, g2,
      Run.insert hrun e2 (ranged_in_range hfull hn)⟩, ?_, hfull⟩
    · rw [insert_range_succ, hf]
      dsimp only
      rw [e2, range_keys_succ]
    · intro k
      rw [List.mem_cons, hI, range_keys_succ, List.mem_append, List.mem_singleton]
      exact or_comm

/-- The remove of an issued key that matches its slot, in a state satisfying the
invariants and without a wrap of the generation. -/
theorem remove_step {m : sm_Map α} {fl : List Nat} {I L : List sm_Key} {k : sm_Key}
    (hi : Inv m fl) (hg : GInv m I L) (hk : k ∈ I)
    (hgen : (m.slots.ptr k.index).generation = k.generation)
    (hw : k.generation + 1 < 4294967296) (out : Option α) :
    ∃ m2, sm_map_remove m k out =
        (true, m2, out.map (fun _ => m.values.ptr (m.slots.ptr k.index).index)) ∧
      Removed m m2 k ∧ Inv m2 (k.index :: fl) ∧
      GInv m2 I (L.filter (fun x => x ≠ k)) ∧
      ∀ x, (m2.slots.ptr x).generation =
        if x = k.index then (m.slots.ptr x).generation + 1 else (m.slots.ptr x).generation := by
  have hrm := removed_of_live out hi hgen (hg.issued_live k hk hgen)
  have hnw : ((sm_map_remove m k out).2.1.slots.ptr k.index).generation ≠ 0 := by
    rw [hrm.slot_key]
    dsimp only
    rw [u32_succ_of_lt hw]
    exact Nat.succ_ne_zero _
  refine ⟨_, ?_, hrm, inv_of_removed hi hrm, ginv_of_removed hi hg hrm hgen hnw,
    removed_gen hi hrm hgen hnw⟩
  rw [Prod.ext_iff, Prod.ext_iff]
  refine ⟨remove_fst m k out hgen, rfl, ?_⟩
  dsimp only
  rw [remove_out m k out hgen]
  cases out <;> rfl

/-- The insert into a state satisfying the invariants whose freelist starts with `h`. -/
theorem insert_step {m : sm_Map α} {h : Nat} {t : List Nat} {I L : List sm_Key}
    (hi : Inv m (h :: t)) (hg : GInv m I L) (val : Option α) :
    ∃ m2, sm_map_insert m val =
        some ({ index := h, generation := (m.slots.ptr h).generation }, m2) ∧
      Inserted m m2 { index := h, generation := (m.slots.ptr h).generation } val ∧
      Inv m2 t ∧
      GInv m2 ({ index := h, generation := (m.slots.ptr h).generation } :: I)
        ({ index := h, generation := (m.slots.ptr h).generation } :: L) := by
  obtain ⟨k2, m2, he, _, _⟩ := insert_returns hi val
  have hh : m.freelist_head ≠ -1 := by
    rw [hi.head_first h t rfl]; omega
  obtain ⟨h2, t2, hfl, _, hk2, _, _, hins, hi2, hg2, _⟩ := inv_insert_reuse hi hg hh he
  simp only [List.cons.injEq] at hfl
  obtain ⟨rfl, rfl⟩ := hfl
  subst hk2
  exact ⟨m2, he, hins, hi2, hg2⟩

/-- Claim C12: the scenario of `main`, for any content of the fresh allocations.
Inserting `0, …, 15` into `sm_map_new(sizeof(int), 4)` yields the 16 pairwise distinct
keys `{0, 1}, …, {15, 1}`; removing `keys[5]` and then `keys[12]` returns true and
outputs 5 and 12; inserting 5 and then 12 yields two new keys, on which `sm_map_get`
returns 5 and 12; and `sm_map_get` on the old `keys[5]` and `keys[12]` returns
`NULL`. -/
theorem test_scenario (ms : Nat → sm_Slot) (mf : Nat → Nat) (mv : Nat → Int)
    (tail : Nat) :
    ∃ m16 m17 m18 k5 m19 k12 m20,
      insert_range (sm_map_new 4 4 ms mf mv tail) 16 = some (m16, range_keys 16) ∧
      (range_keys 16).length = 16 ∧ (range_keys 16).Nodup ∧
      sm_map_remove m16 ((range_keys 16).getD 5 { index := 0, generation := 0 })
        (some (-1)) = (true, m17, some 5) ∧
      sm_map_remove m17 ((range_keys 16).getD 12 { index := 0, generation := 0 })
        (some (-1)) = (true, m18, some 12) ∧
      sm_map_insert m18 (some 5) = some (k5, m19) ∧
      sm_map_insert m19 (some 12) = some (k12, m20) ∧
      k5 ∉ range_keys 16 ∧ k12 ∉ range_keys 16 ∧ k5 ≠ k12 ∧
      sm_map_get m20 k5 = some 5 ∧ sm_map_get m20 k12 = some 12 ∧
      sm_map_get m20 ((range_keys 16).getD 5 { index := 0, generation := 0 }) = none ∧
      sm_map_get m20 ((range_keys 16).getD 12 { index := 0, generation := 0 }) = none := by
  obtain ⟨m16, I, hf, hr, hI, hR⟩ :=
    insert_range_ranged 4 4 ms mf mv tail (by decide) (by decide) 16 (by decide)
  obtain ⟨⟨fl, hi16⟩, hg16⟩ := reach_inv hr
  have hnil := hi16.head_nil hR.head
  subst hnil
  have h5 : (range_keys 16).getD 5 { index := 0, generation := 0 } =
      { index := 5, generation := 1 } := rfl
  have h12 : (range_keys 16).getD 12 { index := 0, generation := 0 } =
      { index := 12, generation := 1 } := rfl
  rw [h5, h12]
  -- the remove of `keys[5]`
  obtain ⟨m17, e17, hrm17, hi17, hg17, hgen17⟩ :=
    remove_step (k := { index := 5, generation := 1 }) hi16 hg16
      ((hI _).2 (by decide)) (by dsimp only; rw [hR.slots 5 (by decide)]) (by decide)
      (some (-1))
  dsimp only at e17 hgen17
  rw [hR.slots 5 (by decide)] at e17
  dsimp only [Option.map] at e17
  rw [hR.values 5 (by decide)] at e17
  have hv17 : m17.values.length = 15 := by
    have := hrm17.values_length
    rw [hR.values_length] at this
    omega
  have hp16 : posOf m16 { index := 5, generation := 1 } = 5 := by
    unfold posOf; dsimp only; rw [hR.slots 5 (by decide)]
  have hs17 : m17.slots.ptr 12 = { index := 12, generation := 1 } := by
    rw [hrm17.slot_other 12 (by decide)
      (by intro _; rw [hv17, hR.finder 15 (by decide)]; decide)]
    exact hR.slots 12 (by decide)
  have hval17 : m17.values.ptr 12 = 12 := by
    rw [hrm17.values 12 (by rw [hv17]; decide), hp16, if_neg (by decide)]
    exact hR.values 12 (by decide)
  -- the remove of `keys[12]`
  obtain ⟨m18, e18, hrm18, hi18, hg18, hgen18⟩ :=
    remove_step (k := { index := 12, generation := 1 }) hi17 hg17
      ((hI _).2 (by decide)) (by dsimp only; rw [hs17]) (by decide) (some (-1))
  dsimp only at e18 hgen18 hi18
  rw [hs17] at e18
  dsimp only [Option.map] at e18
  rw [hval17] at e18
  have hv18 : m18.values.length = 14 := by
    have := hrm18.values_length
    omega
  have hg18_12 : (m18.slots.ptr 12).generation = 2 := by
    rw [hgen18 12, if_pos rfl, hs17]
  have hg18_5 : (m18.slots.ptr 5).generation = 2 := by
    rw [hgen18 5, if_neg (by decide), hgen17 5, if_pos rfl, hR.slots 5 (by decide)]
  -- the insert of 5 recycles slot 12
  obtain ⟨m19, e19, hins19, hi19, hg19⟩ := insert_step hi18 hg18 (some (5 : Int))
  rw [hg18_12] at e19 hins19 hg19
  have hs19_5 : (m19.slots.ptr 5).generation = 2 := by
    rw [hins19.slot_other 5 (by decide)]
    exact hg18_5
  -- the insert of 12 recycles slot 5
  obtain ⟨m20, e20, hins20, _, _⟩ := insert_step hi19 hg19 (some (12 : Int))
  rw [hs19_5] at e20 hins20
  have hs20_12 : m20.slots.ptr 12 = { index := 14, generation := 2 } := by
    rw [hins20.slot_other 12 (by decide)]
    have := hins19.slot_key
    dsimp only at this
    rw [this, hv18]
  have hs20_5 : (m20.slots.ptr 5).generation = 2 := by
    have := hins20.slot_key
    dsimp only at this
    rw [this]
  refine ⟨m16, m17, m18, _, m19, _, m20, hf, rfl, by decide, e17, e18, e19, e20,
    by decide, by decide, by decide, ?_, get_of_inserted hins20, ?_, ?_⟩
  · rw [get_eq_some_iff]
    dsimp only
    rw [hs20_12]
    refine ⟨rfl, ?_⟩
    dsimp only
    rw [hins20.values_ptr]
    dsimp only [pushed]
    rw [hins19.values_length, hv18, upd_other _ _ _ _ (by decide), hins19.values_ptr]
    dsimp only [pushed]
    rw [hv18, upd_same]
  · rw [get_eq_none_iff]
    dsimp only
    rw [hs20_5]
    decide
  · rw [get_eq_none_iff]
    dsimp only
    rw [hs20_12]
    decide

/-- Claim C16 fails on the code for the key whose value is stored last: in `w2` the
live key `{1, 1}` has position `p = 1`, the last one; after the two swap-removes
`slot_finder` has length 1, so `sm_map_remove` reads `slot_finder[p]` at an index
that is not below the length.  The cell still holds the entry just removed, the index
of the key's own slot. -/
theorem repair_reads_past_length :
    Reach InRange w2 [{ index := 1, generation := 1 }, { index := 0, generation := 1 }]
      [{ index := 1, generation := 1 }, { index := 0, generation := 1 }] ∧
    (sm_vec_get w2.slots 1).generation = 1 ∧ (sm_vec_get w2.slots 1).index = 1 ∧
    (sm_vec_swap_remove w2.slot_finder 1 none).1.length = 1 ∧
    ¬ (sm_vec_get w2.slots 1).index < (sm_vec_swap_remove w2.slot_finder 1 none).1.length ∧
    sm_vec_get (sm_vec_swap_remove w2.slot_finder 1 none).1 1 = 1 ∧
    (sm_map_remove w2 { index := 1, generation := 1 } none).2.1.slot_finder.length = 1 :=
  ⟨w2_reach, rfl, rfl, rfl, by decide, rfl, rfl⟩

/-- Claim C19: for two map states that agree in every field except `freelist_tail`
and whose `freelist_head` is `-1`, every insert, get and remove returns the same
result on both, and the resulting states agree again in every field except possibly
`freelist_tail`, which differs only while `freelist_head` is `-1`. -/
theorem tail_irrelevant_when_empty (a b : sm_Map α) (h : EqExceptTail a b)
    (hh : a.freelist_head = -1) :
    (∀ val, (sm_map_insert a val).map Prod.fst = (sm_map_insert b val).map Prod.fst ∧
      ∀ ka ma kb mb, sm_map_insert a val = some (ka, ma) →
        sm_map_insert b val = some (kb, mb) →
        EqExceptTail ma mb ∧ ma.freelist_head = -1) ∧
    (∀ k, sm_map_get a k = sm_map_get b k) ∧
    (∀ k out, (sm_map_remove a k out).1 = (sm_map_remove b k out).1 ∧
      (sm_map_remove a k out).2.2 = (sm_map_remove b k out).2.2 ∧
      EqExceptTail (sm_map_remove a k out).2.1 (sm_map_remove b k out).2.1 ∧
      ((sm_map_remove a k out).2.1.freelist_tail ≠
          (sm_map_remove b k out).2.1.freelist_tail →
        (sm_map_remove a k out).2.1.freelist_head = -1)) := by
  obtain ⟨s, f, v, hd, ta⟩ := a
  obtain ⟨s2, f2, v2, hd2, tb⟩ := b
  obtain ⟨h1, h2, h3, h4⟩ := h
  dsimp only at h1 h2 h3 h4 hh
  subst h1 h2 h3 h4 hh
  refine ⟨?_, ?_, ?_⟩
  · intro val
    constructor
    · rw [sm_map_insert, sm_map_insert, if_neg (by simp), if_neg (by simp)]
      dsimp only
      cases sm_vec_push s none with
      | none => rfl
      | some r1 =>
        dsimp only
        cases sm_vec_push v val with
        | none => rfl
        | some r2 =>
          dsimp only
          cases sm_vec_push f (some (to_u32 s.length)) with
          | none => rfl
          | some r3 => rfl
    · intro ka ma kb mb hea heb
      rw [sm_map_insert, if_neg (by simp)] at hea heb
      dsimp only at hea heb
      cases hp1 : sm_vec_push s none with
      | none => rw [hp1] at hea; exact absurd hea (by simp)
      | some r1 =>
        rw [hp1] at hea heb
        dsimp only at hea heb
        cases hp2 : sm_vec_push v val with
        | none => rw [hp2] at hea; exact absurd hea (by simp)
        | some r2 =>
          rw [hp2] at hea heb
          dsimp only at hea heb
          cases hp3 : sm_vec_push f (some (to_u32 s.length)) with
          | none => rw [hp3] at hea; exact absurd hea (by simp)
          | some r3 =>
            rw [hp3] at hea heb
            dsimp only at hea heb
            simp only [Option.some.injEq, Prod.mk.injEq] at hea heb
            obtain ⟨_, rfl⟩ := hea
            obtain ⟨_, rfl⟩ := heb
            exact ⟨⟨rfl, rfl, rfl, rfl⟩, rfl⟩
  · intro k
    rfl
  · intro k out
    by_cases hgen : (s.ptr k.index).generation = k.generation
    · have e : ∀ t : Nat, sm_map_remove (⟨s, f, v, -1, t⟩ : sm_Map α) k out =
          sm_map_remove (⟨s, f, v, -1, 0⟩ : sm_Map α) k out := by
        intro t
        have hg : ¬ (sm_vec_get s k.index).generation ≠ k.generation := not_not.2 hgen
        unfold sm_map_remove
        dsimp only
        rw [if_neg hg, if_neg hg]
        simp
      rw [e ta, e tb]
      exact ⟨rfl, rfl, ⟨rfl, rfl, rfl, rfl⟩, fun hne => absurd rfl hne⟩
    · rw [remove_stale _ k out hgen, remove_stale _ k out hgen]
      exact ⟨rfl, rfl, ⟨rfl, rfl, rfl, rfl⟩, fun _ => rfl⟩

/-- Witness of `tail_irrelevant_when_empty`: the maps `w1` and `w1_tail`, whose
`freelist_tail` are 0 and 7, under an insert of 6, a get and a remove of the key
`{0, 1}`. -/
theorem tail_irrelevant_when_empty_witness :
    EqExceptTail w1 w1_tail ∧ w1.freelist_head = -1 ∧
    w1.freelist_tail ≠ w1_tail.freelist_tail ∧
    (sm_map_insert w1 (some 6)).map Prod.fst = (sm_map_insert w1_tail (some 6)).map Prod.fst ∧
    sm_map_get w1 { index := 0, generation := 1 } =
      sm_map_get w1_tail { index := 0, generation := 1 } ∧
    (sm_map_remove w1 { index := 0, generation := 1 } none).1 =
      (sm_map_remove w1_tail { index := 0, generation := 1 } none).1 ∧
    (sm_map_remove w1 { index := 0, generation := 1 } none).2.2 =
      (sm_map_remove w1_tail { index := 0, generation := 1 } none).2.2 ∧
    EqExceptTail (sm_map_remove w1 { index := 0, generation := 1 } none).2.1
      (sm_map_remove w1_tail { index := 0, generation := 1 } none).2.1 :=
  ⟨⟨rfl, rfl, rfl, rfl⟩, rfl, by decide,
    ((tail_irrelevant_when_empty w1 w1_tail ⟨rfl, rfl, rfl, rfl⟩ rfl).1 (some 6)).1,
    (tail_irrelevant_when_empty w1 w1_tail ⟨rfl, rfl, rfl, rfl⟩ rfl).2.1 _,
    ((tail_irrelevant_when_empty w1 w1_tail ⟨rfl, rfl, rfl, rfl⟩ rfl).2.2 _ none).1,
    ((tail_irrelevant_when_empty w1 w1_tail ⟨rfl, rfl, rfl, rfl⟩ rfl).2.2 _ none).2.1,
    ((tail_irrelevant_when_empty w1 w1_tail ⟨rfl, rfl, rfl, rfl⟩ rfl).2.2 _ none).2.2.1⟩

end SlotMap
